import Mathlib

/-!
Verification of the rich-string engine of the cobra-color repository
(`src/cobra_color/string/{_utils,_segment,_color,_extension}.py`).

Modelling conventions:
* Python `str` values are modelled as `List Char`.
* A Python style-code *set* only ever holds single-character SGR codes
  (the values of `__STYLE_MAP`: "1","2","3","4","5","7","8","9"), so it is
  modelled canonically as a sorted duplicate-free `List Char`; set
  operations keep that canonical form.  Python's set iteration order
  (used by `";".join(styles)`) is unspecified; the model serialises in
  the canonical sorted order.
* Python exceptions are modelled with `Option`/`Except`: `none` (resp.
  `.error`) marks a raised exception.
* Python integers are `Int`; Python `%` is `Int.emod` (same convention
  on negatives).
-/

namespace CobraColor

/-- The ANSI escape character. -/
def escChar : Char := '\x1b'

/-- Characters allowed inside the parameter group of the SGR regular
expression `\x1b\[([\d;]+)m`. -/
def isSemiDigit (c : Char) : Bool := c.isDigit || c = ';'

/-- The values of `__STYLE_MAP` in `_utils.py`: the recognised SGR style
codes (note that "disappear" = 8 is among them). -/
def styleChars : List Char := ['1', '2', '3', '4', '5', '7', '8', '9']

/-- Membership of a parameter token in `__STYLE_CODE` (a set of
one-character strings). -/
def tokenIsStyle (t : List Char) : Bool :=
  match t with
  | [c] => styleChars.contains c
  | _ => false

/-- The decimal digit character for a value below ten. -/
def digitCh (n : Nat) : Char :=
  match n with
  | 0 => '0'
  | 1 => '1'
  | 2 => '2'
  | 3 => '3'
  | 4 => '4'
  | 5 => '5'
  | 6 => '6'
  | 7 => '7'
  | 8 => '8'
  | _ => '9'

/-- Fuel-driven body of `natRepr`; the fuel only forces structural
recursion (so that the kernel can evaluate it) and is always sufficient. -/
def natReprF : Nat → Nat → List Char
  | 0, _ => []
  | fuel + 1, n =>
    if n < 10 then [digitCh n]
    else natReprF fuel (n / 10) ++ [digitCh (n % 10)]

/-- Decimal representation of a natural number, as Python's `str` of a
non-negative int produces it. -/
def natRepr (n : Nat) : List Char := natReprF (n + 1) n

theorem natReprF_mono : ∀ (f1 : Nat) (n f2 : Nat), n < f1 → n < f2 →
    natReprF f1 n = natReprF f2 n := by
  intro f1
  induction f1 with
  | zero => intro n f2 h1 _; omega
  | succ f ih =>
    intro n f2 h1 h2
    match f2 with
    | 0 => omega
    | g + 1 =>
      rw [natReprF, natReprF]
      by_cases h : n < 10
      · simp [h]
      · rw [if_neg h, if_neg h]
        have hd : n / 10 < n := Nat.div_lt_self (by omega) (by omega)
        rw [ih (n / 10) g (by omega) (by omega)]

theorem natRepr_unfold (n : Nat) :
    natRepr n = if n < 10 then [digitCh n] else natRepr (n / 10) ++ [digitCh (n % 10)] := by
  rw [natRepr, natReprF]
  by_cases h : n < 10
  · simp [h]
  · rw [if_neg h, if_neg h, natRepr]
    have hd : n / 10 < n := Nat.div_lt_self (by omega) (by omega)
    rw [natReprF_mono n (n / 10) (n / 10 + 1) (by omega) (by omega)]

/-- Decimal representation of an integer (Python `str(int)`). -/
def intRepr (n : Int) : List Char :=
  if n < 0 then '-' :: natRepr (-n).toNat else natRepr n.toNat

/-- Value of a list of decimal digit characters. -/
def digitsVal (l : List Char) : Nat :=
  l.foldl (fun a c => a * 10 + (c.toNat - 48)) 0

/-- Python `int(s)` on a string: accepts an optional sign followed by
decimal digits, raises (`none`) otherwise. -/
def pyIntStr (s : List Char) : Option Int :=
  match s with
  | [] => none
  | c :: rest =>
    if c = '-' then
      if rest ≠ [] ∧ rest.all Char.isDigit then some (-(digitsVal rest : Int)) else none
    else if (c :: rest).all Char.isDigit then some (digitsVal (c :: rest)) else none

/-- A Python value circulating through the color-code iterators: either a
string or an integer. -/
inductive PyVal where
  | str (s : List Char)
  | int (n : Int)
  deriving DecidableEq, Repr

/-- Python `str()` of such a value. -/
def PyVal.toStr : PyVal → List Char
  | .str s => s
  | .int n => intRepr n

/-- Python `int(v or "0")`: a falsy value (empty string or zero) is
replaced by "0"; a non-numeric string raises. -/
def pyOrZero : PyVal → Option Int
  | .str s => if s = [] then some 0 else pyIntStr s
  | .int n => some n

/-- Python `";".join(parts)`. -/
def joinSemi : List (List Char) → List Char
  | [] => []
  | [p] => p
  | p :: rest => p ++ ';' :: joinSemi rest

/-- Python `s.split(";")` (single-character separator, no maxsplit). -/
def splitSemi (s : List Char) : List (List Char) :=
  match s with
  | [] => [[]]
  | c :: rest =>
    if c = ';' then [] :: splitSemi rest
    else
      match splitSemi rest with
      | [] => [[c]]
      | t :: ts => (c :: t) :: ts

/-- Ordered insertion into a sorted duplicate-free list (model of Python
`set.add`). -/
def sinsert (c : Char) : List Char → List Char
  | [] => [c]
  | d :: rest =>
    if c = d then d :: rest
    else if c < d then c :: d :: rest
    else d :: sinsert c rest

/-- Model of Python `set.update` / union. -/
def sunion (base add : List Char) : List Char :=
  add.foldl (fun acc c => sinsert c acc) base

/-- Model of Python `set.difference_update`. -/
def sdiff (base remove : List Char) : List Char :=
  base.filter (fun c => ¬ remove.contains c)

/-- Model of Python `set.issubset`. -/
def ssubset (a b : List Char) : Bool :=
  a.all (fun c => b.contains c)

/-- Python `next(it, default)` on a list-modelled iterator. -/
def nextD (it : List PyVal) (d : PyVal) : PyVal × List PyVal :=
  match it with
  | [] => (d, [])
  | v :: rest => (v, rest)

/-- Result of `_fmt_ansicolor`: the fg / bg codes (None = no color) and
the remaining iterator. -/
structure FmtOut where
  fg : Option (List Char)
  bg : Option (List Char)
  it : List PyVal
  deriving DecidableEq, Repr

/-- Model of the inner `_fmt_args` helper of `_fmt_ansicolor`
(`_utils.py`): builds the compound extended-color code.  `none` models a
raised exception (a non-numeric string fed to `int`). -/
def fmtArgs (code : List Char) (c_mode : List Char) (it : List PyVal) :
    Option (Option (List Char) × List PyVal) :=
  let m0 := if c_mode ≠ [] then (PyVal.str c_mode, it) else nextD it (.str [])
  let mode := m0.1.toStr
  let it1 := m0.2
  if mode = ['5'] then
    let v := nextD it1 (.str ['0'])
    match pyOrZero v.1 with
    | none => none
    | some n =>
      some (some (code ++ ';' :: '5' :: ';' :: natRepr (n.emod 256).toNat), v.2)
  else if mode = ['2'] then
    let v1 := nextD it1 (.str ['0'])
    match pyOrZero v1.1 with
    | none => none
    | some r =>
      let v2 := nextD v1.2 (.str ['0'])
      match pyOrZero v2.1 with
      | none => none
      | some g =>
        let v3 := nextD v2.2 (.str ['0'])
        match pyOrZero v3.1 with
        | none => none
        | some b =>
          some (some (code ++ ';' :: '2' :: ';' ::
            (natRepr (r.emod 256).toNat ++ ';' ::
              (natRepr (g.emod 256).toNat ++ ';' :: natRepr (b.emod 256).toNat))), v3.2)
  else some (none, it1)

/-- Whether a character lies in the regex class `[0-7]`. -/
def isColor07 (c : Char) : Bool := '0' ≤ c && c ≤ '7'

/-- Model of `__COLOR_RE.fullmatch(code)` for the pattern
`([39][0-7])|((?:4|10)[0-7])`: `.inl` is group 1 (a foreground code),
`.inr` group 2 (a background code). -/
def colorREMatch (code : List Char) : Option (Sum (List Char) (List Char)) :=
  match code with
  | [a, b] =>
    if (a = '3' || a = '9') && isColor07 b then some (.inl [a, b])
    else if a = '4' && isColor07 b then some (.inr [a, b])
    else none
  | ['1', '0', b] => if isColor07 b then some (.inr ['1', '0', b]) else none
  | _ => none

/-- Model of `_fmt_ansicolor` (`_utils.py`).  `none` models a raised
exception. -/
def fmtAnsicolor (it : List PyVal) (c_code : List Char) (c_mode : List Char) :
    Option FmtOut :=
  let c0 := if c_code ≠ [] then (PyVal.str c_code, it) else nextD it (.str [])
  let code := c0.1.toStr
  let it1 := c0.2
  if code = [] then some ⟨none, none, it1⟩
  else if code = ['3', '8'] then
    match fmtArgs ['3', '8'] c_mode it1 with
    | none => none
    | some (fg, it2) => some ⟨fg, none, it2⟩
  else if code = ['4', '8'] then
    match fmtArgs ['4', '8'] c_mode it1 with
    | none => none
    | some (bg, it2) => some ⟨none, bg, it2⟩
  else
    match colorREMatch code with
    | some (.inl f) => some ⟨some f, none, it1⟩
    | some (.inr b) => some ⟨none, some b, it1⟩
    | none => some ⟨none, none, it1⟩

/-- A value acceptable as a color specification (`T_ColorSpec`): a string,
an integer (256-color index) or a sequence (RGB channels). -/
inductive ColorInput where
  | str (s : List Char)
  | int (n : Int)
  | seq (l : List PyVal)
  deriving DecidableEq, Repr

/-- `__STANDARD_COLOR_MAP` of `_utils.py`. -/
def STANDARD_COLOR_MAP : List (List Char × Char) :=
  [(['d'], '0'), (['r'], '1'), (['g'], '2'), (['y'], '3'),
   (['b'], '4'), (['m'], '5'), (['c'], '6'), (['w'], '7')]

/-- `__HIGHLIGHT_COLOR_MAP` of `_utils.py`. -/
def HIGHLIGHT_COLOR_MAP : List (List Char × Char) :=
  [(['l', 'd'], '0'), (['l', 'r'], '1'), (['l', 'g'], '2'), (['l', 'y'], '3'),
   (['l', 'b'], '4'), (['l', 'm'], '5'), (['l', 'c'], '6'), (['l', 'w'], '7')]

/-- Association-list lookup with list-of-char keys. -/
def alookup (m : List (List Char × Char)) (k : List Char) : Option Char :=
  match m with
  | [] => none
  | (key, v) :: rest => if key = k then some v else alookup rest k

/-- Model of `_to_color_code` (`_utils.py`).  `.error` models a raised
exception, `.ok none` models Python returning `None` (no color). -/
def toColorCode (c : ColorInput) (isFg : Bool) : Except Unit (Option (List Char)) :=
  match c with
  | .str s =>
    match alookup STANDARD_COLOR_MAP s with
    | some d => .ok (some ((if isFg then '3' else '4') :: [d]))
    | none =>
      match alookup HIGHLIGHT_COLOR_MAP s with
      | some d => .ok (some (if isFg then ['9', d] else ['1', '0', d]))
      | none =>
        match fmtAnsicolor ((splitSemi s).map PyVal.str) [] [] with
        | none => .error ()
        | some o => .ok (if isFg then o.fg else o.bg)
  | .int n =>
    match fmtAnsicolor [PyVal.int n] (if isFg then ['3', '8'] else ['4', '8']) ['5'] with
    | none => .error ()
    | some o => .ok (if isFg then o.fg else o.bg)
  | .seq l =>
    match fmtAnsicolor l (if isFg then ['3', '8'] else ['4', '8']) ['2'] with
    | none => .error ()
    | some o => .ok (if isFg then o.fg else o.bg)

/-- `to_fgcode` of `_utils.py`. -/
def to_fgcode (c : ColorInput) : Except Unit (Option (List Char)) := toColorCode c true

/-- `to_bgcode` of `_utils.py`. -/
def to_bgcode (c : ColorInput) : Except Unit (Option (List Char)) := toColorCode c false

/-- Model of `ColorSeg` (`_segment.py`): one maximal run of text sharing
one pattern.  `styles` is the canonical sorted duplicate-free list of the
style-code set (every code Python can put in the set is one character). -/
structure ColorSeg where
  plain : List Char
  fg : List Char
  bg : List Char
  styles : List Char
  istart : Nat
  deriving DecidableEq, Repr

/-- `ColorSeg.empty()`. -/
def ColorSeg.empty : ColorSeg := ⟨[], [], [], [], 0⟩

/-- `len(seg)` = `len(seg.plain)`. -/
def ColorSeg.len (s : ColorSeg) : Nat := s.plain.length

/-- `seg.iend` = `istart + len(plain)`. -/
def ColorSeg.iend (s : ColorSeg) : Nat := s.istart + s.plain.length

/-- `seg.apply(text)` / `seg(text)`: same pattern, new text, start 0. -/
def ColorSeg.apply (s : ColorSeg) (t : List Char) : ColorSeg :=
  ⟨t, s.fg, s.bg, s.styles, 0⟩

/-- `seg.isplain`: no fg, bg or style. -/
def ColorSeg.isplain (s : ColorSeg) : Prop := s.fg = [] ∧ s.bg = [] ∧ s.styles = []

instance (s : ColorSeg) : Decidable s.isplain := by
  unfold ColorSeg.isplain
  infer_instance

/-- Pattern equality: `seg.equal(other, flags=("fg","bg","styles"))` —
text excluded. -/
def PatEq (a b : ColorSeg) : Prop := a.fg = b.fg ∧ a.bg = b.bg ∧ a.styles = b.styles

instance (a b : ColorSeg) : Decidable (PatEq a b) := by
  unfold PatEq
  infer_instance

/-- `seg.assemble(*enable)`: ANSI serialization of one segment.  Python
joins the style set in unspecified set order; the model uses the canonical
sorted order. -/
def ColorSeg.assemble (s : ColorSeg) (fgOn bgOn stylesOn : Bool) : List Char :=
  if s.plain = [] then []
  else
    let st := if stylesOn then joinSemi (s.styles.map (fun c => [c])) else []
    let f := if fgOn ∧ s.fg ≠ [] then ';' :: s.fg else []
    let b := if bgOn ∧ s.bg ≠ [] then ';' :: s.bg else []
    let codes := st ++ f ++ b
    if codes = [] then s.plain
    else escChar :: '[' :: (codes ++ 'm' :: (s.plain ++ [escChar, '[', '0', 'm']))

/-- `seg.to_ansi()` = `assemble("fg", "bg", "styles")`. -/
def ColorSeg.to_ansi (s : ColorSeg) : List Char := s.assemble true true true

/-- The target side of one style-rewrite pair as it reaches
`ColorSeg._update_styles`: the literal string `"all"`, `None`, or a set. -/
inductive StyleMatch where
  | allM
  | noneM
  | setM (s : List Char)
  deriving DecidableEq, Repr

/-- Model of `ColorSeg._update_styles(target, to)` (`_segment.py`).
Note the truthiness guards of the source: an empty replacement set
(falsy, but not `None`) and an empty match set fall through all branches
and leave the styles unchanged. -/
def updStyles (target : StyleMatch) (to? : Option (List Char)) (cur : List Char) :
    List Char :=
  match target with
  | .allM =>
    match to? with
    | none => []
    | some t => if t ≠ [] then t else cur
  | .noneM =>
    match to? with
    | some t => if t ≠ [] then sunion cur t else cur
    | none => cur
  | .setM tg =>
    if tg ≠ [] ∧ ssubset tg cur then
      match to? with
      | none => sdiff cur tg
      | some t => if t ≠ [] then sunion (sdiff cur tg) t else cur
    else cur

/-- Model of `ColorSeg._update_fg` / `_update_bg`: set the color to `to`
when it is not `None` and the current color equals `target` (comparing a
string with `None` is `False`). -/
def updColor (target : Option (List Char)) (to? : Option (List Char))
    (cur : List Char) : List Char :=
  match to? with
  | none => cur
  | some t =>
    match target with
    | some tg => if cur = tg then t else cur
    | none => cur

/-- A formatted fg/bg rule as it reaches `ColorSeg._update`: either a
plain string (unconditional set) or a list of `(target, to)` pairs. -/
def ColorRule := Sum (List Char) (List (Option (List Char) × Option (List Char)))

/-- Model of `ColorSeg._update(fg, bg, styles)` (`_segment.py`). -/
def segUpdate (fgR bgR : Option ColorRule)
    (stR : Option (List (StyleMatch × Option (List Char)))) (s : ColorSeg) : ColorSeg :=
  let fg1 :=
    match fgR with
    | none => s.fg
    | some (.inl v) => v
    | some (.inr prs) => prs.foldl (fun cur p => updColor p.1 p.2 cur) s.fg
  let bg1 :=
    match bgR with
    | none => s.bg
    | some (.inl v) => v
    | some (.inr prs) => prs.foldl (fun cur p => updColor p.1 p.2 cur) s.bg
  let st1 :=
    match stR with
    | none => s.styles
    | some rules => rules.foldl (fun cur p => updStyles p.1 p.2 cur) s.styles
  ⟨s.plain, fg1, bg1, st1, s.istart⟩

/-- Attempt to match the regular expression `\x1b\[([\d;]+)m` at the head
of the input.  Returns the parameter group and the remainder.  Python's
regex engine backtracks, but a shorter parameter run is always followed by
another digit/semicolon (never by `m`), so the greedy run is the only
candidate and this deterministic test is exact. -/
def matchAt (s : List Char) : Option (List Char × List Char) :=
  match s with
  | e :: b :: rest =>
    if e = escChar ∧ b = '[' then
      let run := rest.takeWhile isSemiDigit
      let after := rest.dropWhile isSemiDigit
      if run ≠ [] ∧ after.head? = some 'm' then some (run, after.tail) else none
    else none
  | _ => none

/-- Leftmost match of `__ANSI_RE` (model of `finditer`'s first hit):
returns `(text before the match, parameter group, text after)`. -/
def findEsc : List Char → Option (List Char × List Char × List Char)
  | [] => none
  | c :: cs =>
    match matchAt (c :: cs) with
    | some (run, rest) => some ([], run, rest)
    | none =>
      match findEsc cs with
      | none => none
      | some (p, r, rest) => some (c :: p, r, rest)

theorem matchAt_spec (s run rest : List Char) (h : matchAt s = some (run, rest)) :
    s = escChar :: '[' :: (run ++ 'm' :: rest) ∧ run ≠ [] ∧
      run.all isSemiDigit = true := by
  match s with
  | [] => simp [matchAt] at h
  | [a] => simp [matchAt] at h
  | e :: b :: tl =>
    rw [matchAt] at h
    by_cases hc : e = escChar ∧ b = '['
    · rw [if_pos hc] at h
      by_cases hr : tl.takeWhile isSemiDigit ≠ [] ∧
          (tl.dropWhile isSemiDigit).head? = some 'm'
      · rw [if_pos hr] at h
        simp only [Option.some_inj, Prod.mk.injEq] at h
        obtain ⟨hrun, hrest⟩ := h
        have hsplit : tl.takeWhile isSemiDigit ++ tl.dropWhile isSemiDigit = tl :=
          List.takeWhile_append_dropWhile (p := isSemiDigit) (l := tl)
        have hdw : tl.dropWhile isSemiDigit = 'm' :: (tl.dropWhile isSemiDigit).tail := by
          match hd : tl.dropWhile isSemiDigit with
          | [] => rw [hd] at hr; simp at hr
          | x :: xs =>
            rw [hd] at hr
            simp at hr
            simp [hr.2]
        refine ⟨?_, ?_, ?_⟩
        · rw [hc.1, hc.2, ← hrun, ← hrest, ← hdw]
          rw [← hsplit]
          simp
        · rw [← hrun]; exact hr.1
        · rw [← hrun]
          exact List.all_takeWhile
      · rw [if_neg hr] at h
        exact absurd h (by simp)
    · rw [if_neg (by exact fun hh => hc ⟨hh.1, hh.2⟩)] at h
      exact absurd h (by simp)

theorem findEsc_spec (s pre run rest : List Char)
    (h : findEsc s = some (pre, run, rest)) :
    s = pre ++ escChar :: '[' :: (run ++ 'm' :: rest) ∧ run ≠ [] ∧
      run.all isSemiDigit = true := by
  induction s generalizing pre with
  | nil => simp [findEsc] at h
  | cons c cs ih =>
    rw [findEsc] at h
    match hm : matchAt (c :: cs) with
    | some (r0, rest0) =>
      rw [hm] at h
      simp only [Option.some_inj, Prod.mk.injEq] at h
      obtain ⟨hp, hr, hrest⟩ := h
      have := matchAt_spec (c :: cs) r0 rest0 hm
      subst hp hr hrest
      simpa using this
    | none =>
      rw [hm] at h
      match hf : findEsc cs with
      | none => rw [hf] at h; exact absurd h (by simp)
      | some (p0, r0, rest0) =>
        rw [hf] at h
        simp only [Option.some_inj, Prod.mk.injEq] at h
        obtain ⟨hp, hr, hrest⟩ := h
        have := ih p0 (by rw [hf, hr, hrest])
        subst hp
        refine ⟨?_, this.2⟩
        simp only [List.cons_append, List.cons_inj_right]
        exact this.1

theorem findEsc_length (s pre run rest : List Char)
    (h : findEsc s = some (pre, run, rest)) : rest.length < s.length := by
  have := (findEsc_spec s pre run rest h).1
  rw [this]
  simp
  omega

/-- The running parser state `(cur_fg, cur_bg, cur_styles)`. -/
structure PState where
  fg : List Char
  bg : List Char
  styles : List Char
  deriving DecidableEq, Repr

/-- The initial (reset) state. -/
def PState.empty : PState := ⟨[], [], []⟩

/-- The segment emitted for a text run under the state in effect before
it. -/
def segOf (text : List Char) (st : PState) : ColorSeg :=
  ⟨text, st.fg, st.bg, st.styles, 0⟩

/-- The style character of a parameter token that lies in `__STYLE_CODE`,
if any. -/
def styleCharOf (t : List Char) : Option Char :=
  match t with
  | [c] => if styleChars.contains c then some c else none
  | _ => none

theorem nextD_snd_le (l : List PyVal) (d : PyVal) : (nextD l d).2.length ≤ l.length := by
  cases l <;> simp [nextD]

theorem fmtArgs_it_le (code c_mode : List Char) (it : List PyVal) (r : Option (List Char))
    (it2 : List PyVal) (h : fmtArgs code c_mode it = some (r, it2)) :
    it2.length ≤ it.length := by
  simp only [fmtArgs] at h
  have h0 : (if c_mode ≠ [] then (PyVal.str c_mode, it) else nextD it (.str [])).2.length
      ≤ it.length := by
    split
    · exact le_rfl
    · exact nextD_snd_le it _
  generalize hp : (if c_mode ≠ [] then (PyVal.str c_mode, it) else nextD it (.str [])) = p0 at h h0
  obtain ⟨mv, it1⟩ := p0
  simp only at h h0
  split at h
  · cases hz : pyOrZero (nextD it1 (PyVal.str ['0'])).1 with
    | none => rw [hz] at h; cases h
    | some n =>
      rw [hz] at h
      simp only [Option.some_inj, Prod.mk.injEq] at h
      rw [← h.2]
      exact le_trans (nextD_snd_le _ _) h0
  · split at h
    · cases hz1 : pyOrZero (nextD it1 (PyVal.str ['0'])).1 with
      | none => rw [hz1] at h; cases h
      | some a =>
        rw [hz1] at h
        cases hz2 : pyOrZero (nextD (nextD it1 (PyVal.str ['0'])).2 (PyVal.str ['0'])).1 with
        | none => rw [hz2] at h; cases h
        | some b =>
          rw [hz2] at h
          cases hz3 : pyOrZero (nextD (nextD (nextD it1 (PyVal.str ['0'])).2 (PyVal.str ['0'])).2 (PyVal.str ['0'])).1 with
          | none => rw [hz3] at h; cases h
          | some c =>
            rw [hz3] at h
            simp only [Option.some_inj, Prod.mk.injEq] at h
            rw [← h.2]
            exact le_trans (nextD_snd_le _ _)
              (le_trans (nextD_snd_le _ _) (le_trans (nextD_snd_le _ _) h0))
    · simp only [Option.some_inj, Prod.mk.injEq] at h
      rw [← h.2]
      exact h0

theorem digitsVal_append (a b : List Char) :
    digitsVal (a ++ b) = digitsVal a * 10 ^ b.length + digitsVal b := by
  induction b generalizing a with
  | nil => simp [digitsVal]
  | cons c rest ih =>
    have h1 : a ++ c :: rest = (a ++ [c]) ++ rest := by simp
    rw [h1, ih (a ++ [c])]
    have h2 : digitsVal (a ++ [c]) = digitsVal a * 10 + (c.toNat - 48) := by
      simp [digitsVal, List.foldl_append]
    have h3 : digitsVal (c :: rest) = digitsVal [c] * 10 ^ rest.length + digitsVal rest := by
      have := ih [c]
      simpa using this
    rw [h2, h3]
    simp [digitsVal]
    ring

theorem digitCh_isDigit (n : Nat) (h : n < 10) : (digitCh n).isDigit = true := by
  interval_cases n <;> decide

theorem digitCh_toNat (n : Nat) (h : n < 10) : (digitCh n).toNat = 48 + n := by
  interval_cases n <;> decide

theorem natRepr_all_digits (n : Nat) : (natRepr n).all Char.isDigit = true := by
  induction n using Nat.strong_induction_on with
  | _ n ih =>
    rw [natRepr_unfold]
    by_cases h : n < 10
    · simp [h, digitCh_isDigit n h]
    · rw [if_neg h]
      simp only [List.all_append, List.all_cons, List.all_nil, Bool.and_true]
      rw [Bool.and_eq_true]
      exact ⟨ih (n / 10) (Nat.div_lt_self (by omega) (by omega)),
        digitCh_isDigit (n % 10) (Nat.mod_lt n (by omega))⟩

theorem digitsVal_natRepr (n : Nat) : digitsVal (natRepr n) = n := by
  induction n using Nat.strong_induction_on with
  | _ n ih =>
    rw [natRepr_unfold]
    by_cases h : n < 10
    · simp [h, digitsVal, digitCh_toNat n h]
    · rw [if_neg h]
      rw [digitsVal_append]
      have h1 : digitsVal (natRepr (n / 10)) = n / 10 :=
        ih (n / 10) (Nat.div_lt_self (by omega) (by omega))
      have h2 : digitsVal [digitCh (n % 10)] = n % 10 := by
        simp [digitsVal, digitCh_toNat (n % 10) (Nat.mod_lt n (by omega))]
      simp [h1, h2]
      omega

theorem pyIntStr_of_digits (s : List Char) (hne : s ≠ []) (hd : s.all Char.isDigit = true) :
    pyIntStr s = some (digitsVal s) := by
  match s with
  | [] => exact absurd rfl hne
  | c :: rest =>
    have hc : c.isDigit = true := by
      simp [List.all_cons] at hd
      exact hd.1
    have hcm : c ≠ '-' := by
      intro h
      rw [h] at hc
      simp [Char.isDigit] at hc
    rw [pyIntStr]
    simp [hcm, hd]

theorem pyIntStr_natRepr (n : Nat) : pyIntStr (natRepr n) = some n := by
  have hne : natRepr n ≠ [] := by
    rw [natRepr_unfold]
    by_cases h : n < 10 <;> simp [h]
  rw [pyIntStr_of_digits (natRepr n) hne (natRepr_all_digits n), digitsVal_natRepr]

theorem fmtAnsicolor_it_le (it : List PyVal) (c_code c_mode : List Char) (o : FmtOut)
    (h : fmtAnsicolor it c_code c_mode = some o) : o.it.length ≤ it.length := by
  simp only [fmtAnsicolor] at h
  have h0 : (if c_code ≠ [] then (PyVal.str c_code, it) else nextD it (.str [])).2.length
      ≤ it.length := by
    split
    · exact le_rfl
    · exact nextD_snd_le it _
  generalize hp : (if c_code ≠ [] then (PyVal.str c_code, it) else nextD it (.str [])) = p0 at h h0
  obtain ⟨cv, it1⟩ := p0
  simp only at h h0
  split at h
  · simp only [Option.some_inj] at h
    rw [← h]
    exact h0
  · split at h
    · cases hf : fmtArgs ['3', '8'] c_mode it1 with
      | none => rw [hf] at h; cases h
      | some pr =>
        obtain ⟨fg, it2⟩ := pr
        rw [hf] at h
        simp only [Option.some_inj] at h
        rw [← h]
        exact le_trans (fmtArgs_it_le _ _ _ _ _ hf) h0
    · split at h
      · cases hf : fmtArgs ['4', '8'] c_mode it1 with
        | none => rw [hf] at h; cases h
        | some pr =>
          obtain ⟨bg, it2⟩ := pr
          rw [hf] at h
          simp only [Option.some_inj] at h
          rw [← h]
          exact le_trans (fmtArgs_it_le _ _ _ _ _ hf) h0
      · split at h <;> simp only [Option.some_inj] at h <;> rw [← h] <;> exact h0

/-- Fuel-driven body of the parameter-code loop of `ansi_to_segments`
(`_segment.py` lines 42-53); the fuel only forces structural recursion
and is always sufficient.  Process the semicolon-split codes left to
right through a shared cursor; `_fmt_ansicolor` may consume further
parameters.  `none` models a raised exception. -/
def procCodesF : Nat → List PyVal → PState → Option PState
  | 0, _, _ => none
  | fuel + 1, toks, st =>
    match toks with
    | [] => some st
    | v :: rest =>
      let code := v.toStr
      if code = ['0'] ∨ code = [] then procCodesF fuel rest PState.empty
      else
        match styleCharOf code with
        | some c => procCodesF fuel rest ⟨st.fg, st.bg, sinsert c st.styles⟩
        | none =>
          match fmtAnsicolor rest code [] with
          | none => none
          | some o =>
            procCodesF fuel o.it
              ⟨match o.fg with
               | some f => if f ≠ [] then f else st.fg
               | none => st.fg,
               match o.bg with
               | some b => if b ≠ [] then b else st.bg
               | none => st.bg,
               st.styles⟩

/-- The parameter-code loop with its (always sufficient) fuel. -/
def procCodes (toks : List PyVal) (st : PState) : Option PState :=
  procCodesF (toks.length + 1) toks st

theorem procCodesF_mono : ∀ (f1 : Nat) (toks : List PyVal) (f2 : Nat) (st : PState),
    toks.length < f1 → toks.length < f2 →
    procCodesF f1 toks st = procCodesF f2 toks st := by
  intro f1
  induction f1 with
  | zero => intro toks f2 st h1 _; omega
  | succ f ih =>
    intro toks f2 st h1 h2
    match f2, toks with
    | 0, _ => omega
    | g + 1, [] => rfl
    | g + 1, v :: rest =>
      simp only [procCodesF]
      simp only [List.length_cons] at h1 h2
      by_cases h0 : v.toStr = ['0'] ∨ v.toStr = []
      · rw [if_pos h0, if_pos h0]
        exact ih rest g _ (by omega) (by omega)
      · rw [if_neg h0, if_neg h0]
        cases hsc : styleCharOf v.toStr with
        | some c => exact ih rest g _ (by omega) (by omega)
        | none =>
          cases hfa : fmtAnsicolor rest v.toStr [] with
          | none => rfl
          | some o =>
            have hle := fmtAnsicolor_it_le rest v.toStr [] o hfa
            exact ih o.it g _ (by omega) (by omega)

theorem procCodes_nil (st : PState) : procCodes [] st = some st := rfl

theorem procCodes_cons (v : PyVal) (rest : List PyVal) (st : PState) :
    procCodes (v :: rest) st =
      (if v.toStr = ['0'] ∨ v.toStr = [] then procCodes rest PState.empty
       else
        match styleCharOf v.toStr with
        | some c => procCodes rest ⟨st.fg, st.bg, sinsert c st.styles⟩
        | none =>
          match fmtAnsicolor rest v.toStr [] with
          | none => none
          | some o =>
            procCodes o.it
              ⟨match o.fg with
               | some f => if f ≠ [] then f else st.fg
               | none => st.fg,
               match o.bg with
               | some b => if b ≠ [] then b else st.bg
               | none => st.bg,
               st.styles⟩) := by
  conv_lhs => rw [procCodes]
  simp only [List.length_cons, procCodesF]
  by_cases h0 : v.toStr = ['0'] ∨ v.toStr = []
  · rw [if_pos h0, if_pos h0]
    rfl
  · rw [if_neg h0, if_neg h0]
    split
    · rfl
    · split
      · rfl
      · rename_i o heq
        have hle := fmtAnsicolor_it_le rest v.toStr [] o heq
        rw [procCodes]
        exact procCodesF_mono (rest.length + 1) o.it (o.it.length + 1) _
          (by omega) (by omega)

/-- Fuel-driven body of the main loop of `ansi_to_segments`: emit the
text before each escape sequence under the state in effect before it,
update the state from the sequence's codes, and emit trailing text under
the final state.  The fuel only forces structural recursion and is
always sufficient. -/
def parseLoopF : Nat → List Char → PState → Option (List ColorSeg)
  | 0, _, _ => none
  | fuel + 1, s, st =>
    match findEsc s with
    | none => some (if s = [] then [] else [segOf s st])
    | some (pre, run, rest) =>
      match procCodes ((splitSemi run).map PyVal.str) st with
      | none => none
      | some st2 =>
        match parseLoopF fuel rest st2 with
        | none => none
        | some segs => some (if pre = [] then segs else segOf pre st :: segs)

/-- The main loop with its (always sufficient) fuel. -/
def parseLoop (s : List Char) (st : PState) : Option (List ColorSeg) :=
  parseLoopF (s.length + 1) s st

theorem parseLoopF_mono : ∀ (f1 : Nat) (s : List Char) (f2 : Nat) (st : PState),
    s.length < f1 → s.length < f2 →
    parseLoopF f1 s st = parseLoopF f2 s st := by
  intro f1
  induction f1 with
  | zero => intro s f2 st h1 _; omega
  | succ f ih =>
    intro s f2 st h1 h2
    match f2 with
    | 0 => omega
    | g + 1 =>
      simp only [parseLoopF]
      split
      · rfl
      · rename_i pre run rest heq
        have hlt := findEsc_length s pre run rest heq
        split
        · rfl
        · rename_i st2 hst2
          rw [ih rest g st2 (by omega) (by omega)]

theorem parseLoop_eq (s : List Char) (st : PState) :
    parseLoop s st =
      match findEsc s with
      | none => some (if s = [] then [] else [segOf s st])
      | some (pre, run, rest) =>
        match procCodes ((splitSemi run).map PyVal.str) st with
        | none => none
        | some st2 =>
          match parseLoop rest st2 with
          | none => none
          | some segs => some (if pre = [] then segs else segOf pre st :: segs) := by
  conv_lhs => rw [parseLoop]
  simp only [parseLoopF]
  split
  · rfl
  · rename_i pre run rest heq
    have hlt := findEsc_length s pre run rest heq
    split
    · rfl
    · rename_i st2 hst2
      rw [parseLoop, parseLoopF_mono s.length rest (rest.length + 1) st2
        (by omega) (by omega)]

/-- Python `"\x1b[" in ansi`. -/
def hasEscBracket : List Char → Bool
  | [] => false
  | a :: rest => (a = escChar && rest.head? = some '[') || hasEscBracket rest

/-- Model of `ansi_to_segments` (`_segment.py`).  `none` models a raised
exception (none is ever raised: see the totality theorem). -/
def ansiToSegments (ansi : List Char) : Option (List ColorSeg) :=
  if ansi = [] then some []
  else if ¬ hasEscBracket ansi then some [⟨ansi, [], [], [], 0⟩]
  else parseLoop ansi PState.empty

/-- Model of `ColorStr.rich`: the concatenation of `seg.to_ansi()` over
the segments. -/
def richOf (segs : List ColorSeg) : List Char :=
  (segs.map ColorSeg.to_ansi).flatten

/-- Python `slice(a, b).indices(len)` for unit step: clamp of start/stop
with wrap-around for negatives (`.toNat` of a negative is 0, matching
`max(len + v, 0)`). -/
def pyIndices (len_ : Nat) (a b : Option Int) : Nat × Nat :=
  (match a with
   | none => 0
   | some v => if v < 0 then ((len_ : Int) + v).toNat else min v.toNat len_,
   match b with
   | none => len_
   | some v => if v < 0 then ((len_ : Int) + v).toNat else min v.toNat len_)

/-- Model of `loc(len_, slice(a, b), offset=offset)` from `_utils.py`
(unit step): non-negative bounds are first shifted down by `offset`
(clamped at 0), then `slice.indices` clamps to the length.  `none` as the
whole slice is `loc(len_, None)` = `(0, len_)`. -/
def locSlice (len_ : Nat) (ab : Option (Option Int × Option Int)) (offset : Nat) :
    Nat × Nat :=
  match ab with
  | none => (0, len_)
  | some (a, b) =>
    pyIndices len_
      (match a with
       | none => none
       | some v => if v < 0 then some v else some (max (v - offset) 0))
      (match b with
       | none => none
       | some v => if v < 0 then some v else some (max (v - offset) 0))

/-- Python string slicing `s[a:b]` (unit step). -/
def strSlice (s : List Char) (a b : Option Int) : List Char :=
  let ij := pyIndices s.length a b
  (s.drop ij.1).take (ij.2 - ij.1)

/-- Python `s.startswith(p, i)` for `i ≤ len(s)` (the only way the
sources call it). -/
def startswithAt (p s : List Char) (i : Nat) : Bool :=
  decide ((s.drop i).take p.length = p)

/-- The pattern triple of a segment. -/
def ColorSeg.pat (s : ColorSeg) : List Char × List Char × List Char :=
  (s.fg, s.bg, s.styles)

/-- The concatenated plain text of a segment list. -/
def plainOf (segs : List ColorSeg) : List Char :=
  (segs.map ColorSeg.plain).flatten

/-- `len(ColorStr)` = length of the plain projection. -/
def lenOf (segs : List ColorSeg) : Nat := (plainOf segs).length

/-- The per-character view of a segment list: each character paired with
the pattern of the segment carrying it. -/
def flatten (segs : List ColorSeg) : List (Char × (List Char × List Char × List Char)) :=
  segs.flatMap (fun s => s.plain.map (fun c => (c, s.pat)))

/-- The merge loop of `ColorStr.__new__` (`_color.py` lines 238-249):
`last` is the segment currently at the end of the accumulated list.  A
later segment with empty text is dropped; one pattern-equal to `last`
extends `last`'s text in place; any other is chained at `last`'s end
offset. -/
def mergeRun (last : ColorSeg) : List ColorSeg → List ColorSeg
  | [] => [last]
  | s :: rest =>
    if s.plain ≠ [] then
      if PatEq s last then
        mergeRun ⟨last.plain ++ s.plain, last.fg, last.bg, last.styles, last.istart⟩ rest
      else
        last :: mergeRun ⟨s.plain, s.fg, s.bg, s.styles, last.istart + last.plain.length⟩ rest
    else mergeRun last rest

/-- Model of `ColorStr.__new__`: zero segments yield the single empty
segment; otherwise the first segment is kept (start forced to 0) and the
rest go through the merge loop.  (The `copy` flag only controls aliasing
in Python and is a no-op under value semantics.) -/
def mkColorStr : List ColorSeg → List ColorSeg
  | [] => [ColorSeg.empty]
  | s :: rest => mergeRun ⟨s.plain, s.fg, s.bg, s.styles, 0⟩ rest

/-- `ColorStr.from_str` without a pattern parses the text; the result is
`none` only if parsing raised (it never does). -/
def fromStrPlain (s : List Char) : Option (List ColorSeg) :=
  (ansiToSegments s).map mkColorStr

/-- `ColorSeg.from_raw` (`_segment.py`): translate the fg/bg inputs
(`None` meaning no color) and keep the style codes.  In Python the styles
argument passes through `to_style_codes`, whose output is always a set of
the one-character codes; the model takes those codes directly. -/
def fromRaw (s : List Char) (fg bg : Option ColorInput) (styles : List Char) :
    Except Unit ColorSeg := do
  let f ← match fg with
    | none => Except.ok none
    | some c => to_fgcode c
  let b ← match bg with
    | none => Except.ok none
    | some c => to_bgcode c
  Except.ok ⟨s, f.getD [], b.getD [], styles, 0⟩

/-- `ColorStr.from_str` with a pattern: the raw text (unparsed!) becomes a
single `from_raw` segment. -/
def fromStrPat (s : List Char) (fg bg : Option ColorInput) (styles : List Char) :
    Except Unit (List ColorSeg) := do
  let seg ← fromRaw s fg bg styles
  Except.ok (mkColorStr [seg])

/-- `ColorStr.__add__`: concatenation re-runs the merge constructor. -/
def concatC (a b : List ColorSeg) : List ColorSeg := mkColorStr (a ++ b)

/-- The segment-walk of `ColorStr.__getitem__` for a unit-step slice
(`_color.py` lines 807-815): clip every overlapping segment against the
half-open range, slicing the full plain text by real indices. -/
def sliceWalk (plain : List Char) (start stop : Nat) : List ColorSeg → List ColorSeg
  | [] => []
  | seg :: rest =>
    if start ≥ seg.iend then sliceWalk plain start stop rest
    else if stop ≤ seg.istart then []
    else
      let l := max seg.istart start
      let r := min stop seg.iend
      seg.apply ((plain.drop l).take (r - l)) :: sliceWalk plain start stop rest

/-- `ColorStr.__getitem__` with a unit-step slice. -/
def getitemSlice (segs : List ColorSeg) (a b : Option Int) : List ColorSeg :=
  let se := locSlice (lenOf segs) (some (a, b)) 0
  mkColorStr (sliceWalk (plainOf segs) se.1 se.2 segs)

/-- The `extend` argument of `ColorStr.apply`. -/
inductive Extend where
  | left
  | right
  | all
  deriving DecidableEq, Repr

/-- Model of `ColorStr.apply` (`_color.py` lines 310-381).  `pattern[0]`
and `pattern[-1]` are total because a `ColorStr`'s segment list is never
empty (the defaults are never read). -/
def applyPat (self target : List ColorSeg) (start_idx : Int)
    (extend : Option Extend) (fromLeft : Bool) : List ColorSeg :=
  let tplain := plainOf target
  let text_len : Int := tplain.length
  if text_len = 0 then target
  else
    let src_len : Int := lenOf self
    let pl := if fromLeft then start_idx else text_len - start_idx - src_len
    let pr := if fromLeft then start_idx + src_len else text_len - start_idx
    let pattern := getitemSlice self (some (max (-pl) 0))
      (some (min (src_len - (pr - text_len)) src_len))
    let leftPiece :=
      if pl > 0 then
        if extend = some .left ∨ extend = some .all then
          [(pattern.headD ColorSeg.empty).apply (strSlice tplain (some 0) (some pl))]
        else getitemSlice target (some 0) (some pl)
      else []
    let midPiece :=
      if pl < text_len ∧ pr > 0 then
        let midText := strSlice tplain (some (max pl 0)) (some pr)
        pattern.map (fun seg => seg.apply ((midText.drop seg.istart).take (seg.iend - seg.istart)))
      else []
    let rightPiece :=
      if pr < text_len then
        let index := max pr 0
        if extend = some .right ∨ extend = some .all then
          [(pattern.getLastD ColorSeg.empty).apply (strSlice tplain (some index) none)]
        else getitemSlice target (some index) none
      else []
    mkColorStr (leftPiece ++ midPiece ++ rightPiece)

/-- `ColorStr.isplain` as kept by `_add_judgment`: no segment carries any
pattern. -/
def isplainAll (segs : List ColorSeg) : Bool :=
  segs.all (fun s => decide s.isplain)

/-- Model of `ColorSeg.equal` with the default flags (`plain`, `fg`,
`bg`, `styles`): `at_` is the slice (with real indices, so the offset is
the segment's own start). -/
def segEqual (seg other : ColorSeg) (at_ : Option (Option Int × Option Int))
    (offset : Nat) : Bool :=
  let se := locSlice seg.plain.length at_ offset
  ((other.plain.length : Int) = (se.2 : Int) - (se.1 : Int)) &&
    startswithAt other.plain seg.plain se.1 &&
    seg.fg == other.fg && seg.bg == other.bg && seg.styles == other.styles

/-- The segment-by-segment loop of `ColorStr.equal` (`_color.py` lines
703-716).  `none` models the `IndexError` Python would hit if `seg_idx`
ran past the parsed segments of `other`. -/
def equalWalk (start stop : Nat) (oss : List ColorSeg) (idx : Nat) :
    List ColorSeg → Option Bool
  | [] => some true
  | seg :: rest =>
    if start ≥ seg.iend then equalWalk start stop oss idx rest
    else if stop ≤ seg.istart then some true
    else
      match oss.get? idx with
      | none => none
      | some oseg =>
        if segEqual seg oseg
            (some (some ((max seg.istart start : Nat) : Int),
              some ((min stop seg.iend : Nat) : Int))) seg.istart
        then equalWalk start stop oss (idx + 1) rest
        else some false

/-- Model of `ColorStr.equal(other, at)` for a string `other`
(`_color.py` lines 670-717).  A freshly wrapped plain string always has
`isplain = True` (the `ExtStr` class default), so the final
`return False` of the source (self plain, other patterned) is
unreachable and the plain/plain branch degenerates to the plain
comparison. -/
def equalStr (segs : List ColorSeg) (other : List Char)
    (at_ : Option (Option Int × Option Int)) : Option Bool :=
  let se := locSlice (lenOf segs) at_ 0
  if (other.length : Int) ≠ (se.2 : Int) - (se.1 : Int) then some false
  else if se.1 = se.2 then some true
  else if isplainAll segs then
    some (startswithAt other (plainOf segs) se.1)
  else
    match ansiToSegments other with
    | none => none
    | some oss => equalWalk se.1 se.2 oss 0 segs

/-- `ColorStr.__eq__`: `equal` with the whole range. -/
def eqStr (segs : List ColorSeg) (other : List Char) : Option Bool :=
  equalStr segs other none

/-- Contiguity from a given offset: each segment starts where the
previous one ends. -/
def contigFrom : List ColorSeg → Nat → Prop
  | [], _ => True
  | s :: rest, pos => s.istart = pos ∧ contigFrom rest (pos + s.plain.length)

instance contigFromDec : (segs : List ColorSeg) → (pos : Nat) → Decidable (contigFrom segs pos)
  | [], _ => .isTrue trivial
  | _ :: rest, pos => by
    unfold contigFrom
    have := contigFromDec rest
    infer_instance

/-- No two consecutive segments with non-empty text share a pattern. -/
def noAdjDup : List ColorSeg → Bool
  | s1 :: s2 :: rest =>
    !(s1.plain ≠ [] && s2.plain ≠ [] && decide (PatEq s1 s2)) && noAdjDup (s2 :: rest)
  | _ => true

theorem flatten_append (a b : List ColorSeg) :
    flatten (a ++ b) = flatten a ++ flatten b := by
  simp [flatten]

theorem pat_of_patEq {a b : ColorSeg} (h : PatEq a b) : a.pat = b.pat := by
  obtain ⟨h1, h2, h3⟩ := h
  simp [ColorSeg.pat, h1, h2, h3]

theorem flatten_mergeRun (rest : List ColorSeg) : ∀ last : ColorSeg,
    flatten (mergeRun last rest) =
      last.plain.map (fun c => (c, last.pat)) ++ flatten rest := by
  induction rest with
  | nil => intro last; simp [mergeRun, flatten]
  | cons s rest ih =>
    intro last
    rw [mergeRun]
    by_cases hp : s.plain ≠ []
    · rw [if_pos hp]
      by_cases hpe : PatEq s last
      · rw [if_pos hpe, ih]
        have hpat : s.pat = last.pat := pat_of_patEq hpe
        have hpr : (⟨last.plain ++ s.plain, last.fg, last.bg, last.styles,
          last.istart⟩ : ColorSeg).pat = last.pat := rfl
        have hplr : (⟨last.plain ++ s.plain, last.fg, last.bg, last.styles,
          last.istart⟩ : ColorSeg).plain = last.plain ++ s.plain := rfl
        rw [hpr, hplr, List.map_append]
        simp only [flatten, List.flatMap_cons, hpat]
        simp [List.append_assoc]
      · rw [if_neg hpe]
        simp only [flatten, List.flatMap_cons] at *
        rw [ih]
        simp [ColorSeg.pat]
    · rw [if_neg hp, ih]
      simp only [ne_eq, not_not] at hp
      simp [flatten, hp]

theorem flatten_mkColorStr (segs : List ColorSeg) :
    flatten (mkColorStr segs) = flatten segs := by
  cases segs with
  | nil => simp [mkColorStr, flatten, ColorSeg.empty]
  | cons s rest =>
    rw [mkColorStr, flatten_mergeRun]
    simp [flatten, ColorSeg.pat]

theorem plainOf_eq_map_fst (segs : List ColorSeg) :
    plainOf segs = (flatten segs).map Prod.fst := by
  induction segs with
  | nil => simp [plainOf, flatten]
  | cons s rest ih =>
    simp only [plainOf, flatten, List.map_cons, List.flatten_cons, List.flatMap_cons,
      List.map_append] at *
    rw [ih]
    have hid : (Prod.fst ∘ fun c : Char => (c, s.pat)) = id := rfl
    simp [hid]

theorem plainOf_mkColorStr (segs : List ColorSeg) :
    plainOf (mkColorStr segs) = plainOf segs := by
  rw [plainOf_eq_map_fst, plainOf_eq_map_fst, flatten_mkColorStr]

theorem lenOf_mkColorStr (segs : List ColorSeg) :
    lenOf (mkColorStr segs) = lenOf segs := by
  simp [lenOf, plainOf_mkColorStr]

theorem contig_mergeRun (rest : List ColorSeg) : ∀ (last : ColorSeg) (pos : Nat),
    last.istart = pos → contigFrom (mergeRun last rest) pos := by
  induction rest with
  | nil =>
    intro last pos h
    simp [mergeRun, contigFrom, h]
  | cons s rest ih =>
    intro last pos h
    rw [mergeRun]
    by_cases hp : s.plain ≠ []
    · rw [if_pos hp]
      by_cases hpe : PatEq s last
      · rw [if_pos hpe]
        exact ih _ pos h
      · rw [if_neg hpe]
        refine ⟨h, ?_⟩
        exact ih _ _ (by simp [h])
    · rw [if_neg hp]
      exact ih last pos h

theorem contig_mkColorStr (segs : List ColorSeg) : contigFrom (mkColorStr segs) 0 := by
  cases segs with
  | nil => simp [mkColorStr, contigFrom, ColorSeg.empty]
  | cons s rest => exact contig_mergeRun rest _ 0 rfl

theorem mergeRun_ne_nil (rest : List ColorSeg) (last : ColorSeg) :
    mergeRun last rest ≠ [] := by
  induction rest generalizing last with
  | nil => simp [mergeRun]
  | cons s rest ih =>
    rw [mergeRun]
    by_cases hp : s.plain ≠ []
    · rw [if_pos hp]
      by_cases hpe : PatEq s last
      · rw [if_pos hpe]; exact ih _
      · rw [if_neg hpe]; simp
    · rw [if_neg hp]; exact ih last

theorem mkColorStr_ne_nil (segs : List ColorSeg) : mkColorStr segs ≠ [] := by
  cases segs with
  | nil => simp [mkColorStr]
  | cons s rest => exact mergeRun_ne_nil rest _

theorem mergeRun_head (rest : List ColorSeg) : ∀ last : ColorSeg,
    ∃ ext tl, mergeRun last rest =
      ⟨last.plain ++ ext, last.fg, last.bg, last.styles, last.istart⟩ :: tl := by
  induction rest with
  | nil =>
    intro last
    exact ⟨[], [], by simp [mergeRun]⟩
  | cons s rest ih =>
    intro last
    rw [mergeRun]
    by_cases hp : s.plain ≠ []
    · rw [if_pos hp]
      by_cases hpe : PatEq s last
      · rw [if_pos hpe]
        obtain ⟨ext, tl, hh⟩ := ih ⟨last.plain ++ s.plain, last.fg, last.bg, last.styles, last.istart⟩
        exact ⟨s.plain ++ ext, tl, by simpa [List.append_assoc] using hh⟩
      · rw [if_neg hpe]
        refine ⟨[], mergeRun ⟨s.plain, s.fg, s.bg, s.styles,
          last.istart + last.plain.length⟩ rest, ?_⟩
        simp
    · rw [if_neg hp]
      exact ih last

theorem mergeRun_all_nonempty (rest : List ColorSeg) : ∀ last : ColorSeg,
    last.plain ≠ [] → ∀ x ∈ mergeRun last rest, x.plain ≠ [] := by
  induction rest with
  | nil =>
    intro last h x hx
    simp [mergeRun] at hx
    rw [hx]; exact h
  | cons s rest ih =>
    intro last h x hx
    rw [mergeRun] at hx
    by_cases hp : s.plain ≠ []
    · rw [if_pos hp] at hx
      by_cases hpe : PatEq s last
      · rw [if_pos hpe] at hx
        exact ih _ (by simp [h]) x hx
      · rw [if_neg hpe] at hx
        rcases List.mem_cons.mp hx with h1 | h2
        · rw [h1]; exact h
        · exact ih ⟨s.plain, s.fg, s.bg, s.styles, last.istart + last.plain.length⟩ hp x h2
    · rw [if_neg hp] at hx
      exact ih last h x hx

theorem mergeRun_tail_nonempty (rest : List ColorSeg) : ∀ last : ColorSeg,
    ∀ x ∈ (mergeRun last rest).tail, x.plain ≠ [] := by
  induction rest with
  | nil =>
    intro last x hx
    simp [mergeRun] at hx
  | cons s rest ih =>
    intro last x hx
    rw [mergeRun] at hx
    by_cases hp : s.plain ≠ []
    · rw [if_pos hp] at hx
      by_cases hpe : PatEq s last
      · rw [if_pos hpe] at hx
        exact ih _ x hx
      · rw [if_neg hpe] at hx
        simp only [List.tail_cons] at hx
        exact mergeRun_all_nonempty rest
          ⟨s.plain, s.fg, s.bg, s.styles, last.istart + last.plain.length⟩ hp x hx
    · rw [if_neg hp] at hx
      exact ih last x hx

theorem noAdjDup_mergeRun (rest : List ColorSeg) : ∀ last : ColorSeg,
    noAdjDup (mergeRun last rest) = true := by
  induction rest with
  | nil => intro last; simp [mergeRun, noAdjDup]
  | cons s rest ih =>
    intro last
    rw [mergeRun]
    by_cases hp : s.plain ≠ []
    · rw [if_pos hp]
      by_cases hpe : PatEq s last
      · rw [if_pos hpe]; exact ih _
      · rw [if_neg hpe]
        obtain ⟨ext, tl, hh⟩ := mergeRun_head rest
          ⟨s.plain, s.fg, s.bg, s.styles, last.istart + last.plain.length⟩
        rw [hh, noAdjDup]
        rw [← hh]
        rw [Bool.and_eq_true]
        refine ⟨?_, ih _⟩
        simp only [Bool.not_eq_true']
        rw [Bool.and_eq_false_iff]
        right
        rw [decide_eq_false_iff_not]
        intro hcontra
        exact hpe ⟨hcontra.1.symm, hcontra.2.1.symm, hcontra.2.2.symm⟩
    · rw [if_neg hp]
      exact ih last

theorem noAdjDup_mkColorStr (segs : List ColorSeg) : noAdjDup (mkColorStr segs) = true := by
  cases segs with
  | nil => simp [mkColorStr, noAdjDup]
  | cons s rest => exact noAdjDup_mergeRun rest _

theorem mkColorStr_tail_nonempty (segs : List ColorSeg) :
    ∀ x ∈ (mkColorStr segs).tail, x.plain ≠ [] := by
  cases segs with
  | nil => simp [mkColorStr]
  | cons s rest => exact mergeRun_tail_nonempty rest _

/-- A color argument of `cstr` / `ColorStr.rebuild` (`T_ColorDesc`):
`"clear"` (or `""`), one color spec, or mapping pairs. -/
inductive CDesc where
  | desc_clear
  | single (c : ColorInput)
  | pairs (l : List (ColorInput × ColorInput))

/-- The key/value translator of `_fmt_c_mapping`: the empty string means
"unset", anything else goes through `to_fgcode`/`to_bgcode`. -/
def cfunc (c : ColorInput) (isFg : Bool) : Except Unit (Option (List Char)) :=
  if c = .str [] then .ok (some []) else toColorCode c isFg

/-- Model of `_fmt_c_mapping` of `ColorStr._update` (`_color.py`): format
the fg/bg argument into the rule `ColorSeg._update` consumes.  A single
value that translates to `None` (e.g. an unknown color letter) yields no
rule at all. -/
def fmtCMapping (m : Option CDesc) (isFg : Bool) : Except Unit (Option ColorRule) :=
  match m with
  | none => .ok none
  | some .desc_clear => .ok (some (.inl []))
  | some (.single c) => do
    let r ← cfunc c isFg
    match r with
    | some v => .ok (some (.inl v))
    | none => .ok none
  | some (.pairs l) => do
    let prs ← l.mapM (fun p => do
      let k ← cfunc p.1 isFg
      let v ← cfunc p.2 isFg
      Except.ok (k, v))
    .ok (some (.inr prs))

/-- A styles argument of `cstr` / `ColorStr.rebuild` (`T_StyleDesc`),
given at the level after `to_style_codes` translation: `"clear"` (or an
empty sequence), one code set, or mapping pairs whose keys are `None` or
a code set.  (A literal string key would itself pass through
`to_style_codes` and can never produce the internal `"all"` marker, which
only the clear/single forms build.) -/
inductive SDesc where
  | desc_clear
  | single (codes : List Char)
  | pairs (l : List (Option (List Char) × Option (List Char)))

/-- Model of `_fmt_s_mapping` of `ColorStr._update`. -/
def fmtSMapping : Option SDesc → Option (List (StyleMatch × Option (List Char)))
  | none => none
  | some .desc_clear => some [(.allM, none)]
  | some (.single codes) => some [(.allM, some codes)]
  | some (.pairs l) =>
    some (l.map (fun p =>
      ((match p.1 with
        | none => StyleMatch.noneM
        | some s => StyleMatch.setM s), p.2)))

/-- Model of `ColorStr._update` (`_color.py` lines 725-774): format the
three mapping arguments, then rewrite every segment in place.  The
source explicitly does **not** re-merge adjacent segments afterwards
(see its NOTE). -/
def colorStrUpdate (fg bg : Option CDesc) (st : Option SDesc)
    (segs : List ColorSeg) : Except Unit (List ColorSeg) := do
  let fgR ← fmtCMapping fg true
  let bgR ← fmtCMapping bg false
  let stR := fmtSMapping st
  Except.ok (segs.map (segUpdate fgR bgR stR))

theorem segUpdate_plain (fgR bgR : Option ColorRule)
    (stR : Option (List (StyleMatch × Option (List Char)))) (s : ColorSeg) :
    (segUpdate fgR bgR stR s).plain = s.plain := rfl

theorem segUpdate_istart (fgR bgR : Option ColorRule)
    (stR : Option (List (StyleMatch × Option (List Char)))) (s : ColorSeg) :
    (segUpdate fgR bgR stR s).istart = s.istart := rfl

theorem contig_map_segUpdate (fgR bgR : Option ColorRule)
    (stR : Option (List (StyleMatch × Option (List Char)))) :
    ∀ (segs : List ColorSeg) (pos : Nat), contigFrom segs pos →
      contigFrom (segs.map (segUpdate fgR bgR stR)) pos := by
  intro segs
  induction segs with
  | nil => intro pos _; trivial
  | cons s rest ih =>
    intro pos h
    obtain ⟨h1, h2⟩ := h
    exact ⟨h1, ih _ h2⟩

theorem sum_seg_lengths (segs : List ColorSeg) :
    (segs.map (fun s => s.plain.length)).sum = lenOf segs := by
  induction segs with
  | nil => simp [lenOf, plainOf]
  | cons s rest ih =>
    simp [lenOf, plainOf] at *
    omega

theorem contig_pairs (segs : List ColorSeg) : ∀ (pos : Nat), contigFrom segs pos →
    ∀ i (hi : i + 1 < segs.length),
      (segs.get ⟨i, by omega⟩).iend = (segs.get ⟨i + 1, hi⟩).istart := by
  induction segs with
  | nil => intro pos _ i hi; simp at hi
  | cons s rest ih =>
    intro pos h i hi
    obtain ⟨h1, h2⟩ := h
    match i with
    | 0 =>
      match rest, h2, hi with
      | r :: rest2, h2, _ =>
        simp only [List.get]
        show s.iend = r.istart
        rw [ColorSeg.iend, h1, h2.1]
    | i + 1 =>
      simp only [List.length_cons] at hi
      exact ih _ h2 i (by omega)

theorem mkColorStr_zero_single (segs : List ColorSeg)
    (h : lenOf (mkColorStr segs) = 0) :
    ∃ s, mkColorStr segs = [s] ∧ s.plain = [] := by
  match hm : mkColorStr segs with
  | [] => exact absurd hm (mkColorStr_ne_nil segs)
  | [s] =>
    refine ⟨s, rfl, ?_⟩
    rw [hm] at h
    simpa [lenOf, plainOf] using h
  | s :: t :: tl2 =>
    exfalso
    have ht : t.plain ≠ [] := by
      apply mkColorStr_tail_nonempty segs
      rw [hm]
      simp
    rw [hm] at h
    simp [lenOf, plainOf] at h
    exact ht h.2.1

instance exceptDecEq {ε α : Type} [DecidableEq ε] [DecidableEq α] :
    DecidableEq (Except ε α) := fun a b =>
  match a, b with
  | .ok x, .ok y =>
    if h : x = y then .isTrue (by rw [h])
    else .isFalse (by intro hc; injection hc; contradiction)
  | .error x, .error y =>
    if h : x = y then .isTrue (by rw [h])
    else .isFalse (by intro hc; injection hc; contradiction)
  | .ok _, .error _ => .isFalse (by intro hc; cases hc)
  | .error _, .ok _ => .isFalse (by intro hc; cases hc)

theorem headD_istart_zero (segs : List ColorSeg) (hne : segs ≠ [])
    (h : contigFrom segs 0) : (segs.headD ColorSeg.empty).istart = 0 := by
  match segs with
  | [] => exact absurd rfl hne
  | s :: rest => exact h.1

/-- C2 (amended).  Every public operation producing a `ColorStr`
(construction from segments, parsing, concatenation, slicing, `apply`)
ends in the merge constructor `mkColorStr`, so the first conjunct covers
them all: the segment list is never empty, the first segment starts at
0, segments are contiguous, and lengths sum to the total; no two
consecutive segments with non-empty text share a pattern.  The in-place
mapping update of `rebuild`/`cstr` preserves the non-emptiness and the
contiguity invariants (second conjunct) — but *not* the
no-adjacent-duplicates invariant, and a zero-content `ColorStr` is
exactly one empty segment whose attributes need not be empty (see the
counterexample). -/
theorem c2_invariants_amended (segs : List ColorSeg) :
    (mkColorStr segs ≠ [] ∧
      ((mkColorStr segs).headD ColorSeg.empty).istart = 0 ∧
      contigFrom (mkColorStr segs) 0 ∧
      (∀ i (hi : i + 1 < (mkColorStr segs).length),
        ((mkColorStr segs).get ⟨i, by omega⟩).iend =
          ((mkColorStr segs).get ⟨i + 1, hi⟩).istart) ∧
      ((mkColorStr segs).map (fun s => s.plain.length)).sum = lenOf (mkColorStr segs) ∧
      noAdjDup (mkColorStr segs) = true) ∧
    (∀ fg bg st out, colorStrUpdate fg bg st (mkColorStr segs) = .ok out →
      out ≠ [] ∧ contigFrom out 0 ∧
        (out.map (fun s => s.plain.length)).sum = lenOf out) ∧
    (lenOf (mkColorStr segs) = 0 → ∃ s, mkColorStr segs = [s] ∧ s.plain = []) := by
  refine ⟨⟨mkColorStr_ne_nil segs,
    headD_istart_zero _ (mkColorStr_ne_nil segs) (contig_mkColorStr segs),
    contig_mkColorStr segs,
    contig_pairs _ 0 (contig_mkColorStr segs),
    sum_seg_lengths _,
    noAdjDup_mkColorStr segs⟩, ?_, mkColorStr_zero_single segs⟩
  intro fg bg st out hupd
  simp only [colorStrUpdate, bind, Except.bind] at hupd
  cases hfg : fmtCMapping fg true with
  | error e => rw [hfg] at hupd; cases hupd
  | ok fgR =>
    rw [hfg] at hupd
    cases hbg : fmtCMapping bg false with
    | error e => rw [hbg] at hupd; cases hupd
    | ok bgR =>
      rw [hbg] at hupd
      simp only [Except.ok.injEq] at hupd
      rw [← hupd]
      refine ⟨?_, ?_, sum_seg_lengths _⟩
      · simp [mkColorStr_ne_nil segs]
      · exact contig_map_segUpdate _ _ _ _ 0 (contig_mkColorStr segs)

/-- C2 witness: the amended invariants evaluated at concrete inputs,
discharging the inner hypotheses (a mapping update that succeeds, and a
zero-content construction). -/
theorem c2_invariants_witness :
    (noAdjDup (mkColorStr [⟨['a'], ['3', '1'], [], [], 0⟩]) = true ∧
      contigFrom (mkColorStr [⟨['a'], ['3', '1'], [], [], 0⟩]) 0) ∧
    ([(⟨['a'], ['3', '1'], [], [], 0⟩ : ColorSeg)] ≠ [] ∧
      contigFrom [(⟨['a'], ['3', '1'], [], [], 0⟩ : ColorSeg)] 0) ∧
    (∃ s, mkColorStr [] = [s] ∧ s.plain = []) := by
  refine ⟨⟨(c2_invariants_amended [⟨['a'], ['3', '1'], [], [], 0⟩]).1.2.2.2.2.2,
    (c2_invariants_amended [⟨['a'], ['3', '1'], [], [], 0⟩]).1.2.2.1⟩, ?_, ?_⟩
  · have h := (c2_invariants_amended [⟨['a'], ['3', '1'], [], [], 0⟩]).2.1 none none none
      [⟨['a'], ['3', '1'], [], [], 0⟩] (by decide)
    exact ⟨h.1, h.2.1⟩
  · exact (c2_invariants_amended []).2.2 (by decide)

/-- C2 counterexample: (a) `cstr`/`rebuild` with a mapping rule
(`fg="b"`) on a two-segment string leaves two adjacent non-empty
segments with identical patterns — the maximality invariant fails after
the in-place update (as the source's own NOTE admits); (b) slicing a red
string to zero content keeps the red foreground on the single empty
segment, so a zero-content `ColorStr` need not carry the default
attributes. -/
theorem c2_invariants_counterexample :
    (colorStrUpdate (some (.single (.str ['b']))) none none
        (concatC (mkColorStr [⟨['a'], ['3', '1'], [], [], 0⟩])
          (mkColorStr [⟨['b'], ['3', '2'], [], [], 0⟩])) =
      .ok [⟨['a'], ['3', '4'], [], [], 0⟩, ⟨['b'], ['3', '4'], [], [], 1⟩] ∧
      noAdjDup [(⟨['a'], ['3', '4'], [], [], 0⟩ : ColorSeg),
        ⟨['b'], ['3', '4'], [], [], 1⟩] = false) ∧
    (getitemSlice (mkColorStr [⟨['a', 'b'], ['3', '1'], [], [], 0⟩])
        (some 1) (some 1) = [⟨[], ['3', '1'], [], [], 0⟩] ∧
      lenOf [(⟨[], ['3', '1'], [], [], 0⟩ : ColorSeg)] = 0 ∧
      (⟨[], ['3', '1'], [], [], 0⟩ : ColorSeg).fg ≠ []) := by
  refine ⟨⟨by decide, by decide⟩, by decide, by decide, by decide⟩

/-- C5 (amended).  The style-rewrite branches of
`ColorSeg._update_styles`: a *non-empty* concrete match set fires iff it
is a subset of the current styles, then a non-empty replacement removes
the matched styles and adds the replacement, `None` removes them, and an
*empty* replacement set leaves the styles unchanged (the source's
truthiness guard skips that branch); an empty match set never fires;
`"all"` with `None` clears, with a non-empty set replaces, with an empty
set leaves the styles unchanged; `None` as match adds the replacement
styles.  The three concrete examples of the claim hold as stated. -/
theorem c5_style_rules_amended :
    (∀ tg t cur : List Char, tg ≠ [] → ssubset tg cur = true → t ≠ [] →
      updStyles (.setM tg) (some t) cur = sunion (sdiff cur tg) t) ∧
    (∀ tg cur : List Char, tg ≠ [] → ssubset tg cur = true →
      updStyles (.setM tg) none cur = sdiff cur tg) ∧
    (∀ tg cur : List Char, ¬(tg ≠ [] ∧ ssubset tg cur = true) →
      ∀ to?, updStyles (.setM tg) to? cur = cur) ∧
    (∀ tg cur : List Char, updStyles (.setM tg) (some []) cur = cur) ∧
    (∀ cur : List Char, updStyles .allM none cur = []) ∧
    (∀ t cur : List Char, t ≠ [] → updStyles .allM (some t) cur = t) ∧
    (∀ cur : List Char, updStyles .allM (some []) cur = cur) ∧
    (∀ t cur : List Char, updStyles .noneM (some t) cur = sunion cur t) ∧
    (updStyles (.setM ['1']) (some ['4']) ['1'] = ['4'] ∧
      updStyles .allM none ['1'] = [] ∧
      updStyles .noneM (some ['3']) ['1'] = ['1', '3']) := by
  refine ⟨?_, ?_, ?_, ?_, ?_, ?_, ?_, ?_, by decide, by decide, by decide⟩
  · intro tg t cur htg hsub ht
    simp [updStyles, htg, hsub, ht]
  · intro tg cur htg hsub
    simp [updStyles, htg, hsub]
  · intro tg cur hno to?
    simp only [updStyles]
    rw [if_neg hno]
  · intro tg cur
    simp only [updStyles]
    split
    · rfl
    · rfl
  · intro cur; rfl
  · intro t cur ht
    simp [updStyles, ht]
  · intro cur; rfl
  · intro t cur
    simp only [updStyles]
    match t with
    | [] => simp [sunion]
    | c :: rest => simp

/-- C5 witness: the conditional branches applied at concrete inputs. -/
theorem c5_style_rules_witness :
    updStyles (.setM ['1']) (some ['4', '5']) ['1', '2'] = ['2', '4', '5'] ∧
    updStyles (.setM ['1']) none ['1', '2'] = ['2'] ∧
    updStyles (.setM ['3']) (some ['4']) ['1', '2'] = ['1', '2'] ∧
    updStyles .allM (some ['4']) ['1', '2'] = ['4'] := by
  refine ⟨?_, ?_, ?_, ?_⟩
  · have h := c5_style_rules_amended.1 ['1'] ['4', '5'] ['1', '2']
      (by decide) (by decide) (by decide)
    rw [h]; decide
  · have h := c5_style_rules_amended.2.1 ['1'] ['1', '2'] (by decide) (by decide)
    rw [h]; decide
  · have h := c5_style_rules_amended.2.2.1 ['3'] ['1', '2'] (by decide) (some ['4'])
    exact h
  · have h := c5_style_rules_amended.2.2.2.2.2.1 ['4'] ['1', '2'] (by decide)
    exact h

/-- C5 counterexample: the claim as stated says a concrete match set
fires whenever it is a subset and then "removes the matched styles and
adds the replacement" — with the empty replacement set that would give
`{}`, but the source leaves the styles unchanged. -/
theorem c5_style_rules_counterexample :
    updStyles (.setM ['1']) (some []) ['1'] = ['1'] ∧ (['1'] : List Char) ≠ [] := by
  exact ⟨by decide, by decide⟩

/-- C7 (amended).  The color-construction surface never raises for the
claim's inputs: RGB channels (any integers) are reduced modulo 256, an
integer index likewise, a wrong-arity integer tuple has its missing
channels defaulted to 0, and an unknown color letter simply yields no
color (`None`, hence no color applied by `from_raw`).  A Value error is
possible only for a non-numeric string inside a numeric position. -/
theorem c7_invalid_color_amended :
    (∀ r g b : Int, to_fgcode (.seq [.int r, .int g, .int b]) =
      .ok (some ('3' :: '8' :: ';' :: '2' :: ';' ::
        (natRepr (r.emod 256).toNat ++ ';' ::
          (natRepr (g.emod 256).toNat ++ ';' :: natRepr (b.emod 256).toNat))))) ∧
    (∀ n : Int, to_fgcode (.int n) =
      .ok (some ('3' :: '8' :: ';' :: '5' :: ';' :: natRepr (n.emod 256).toNat))) ∧
    (∀ r g : Int, to_fgcode (.seq [.int r, .int g]) =
      .ok (some ('3' :: '8' :: ';' :: '2' :: ';' ::
        (natRepr (r.emod 256).toNat ++ ';' ::
          (natRepr (g.emod 256).toNat ++ ';' :: natRepr ((0 : Int).toNat)))))) ∧
    to_fgcode (.str ['q']) = .ok none ∧
    fromRaw ['X'] (some (.str ['q'])) none [] = .ok ⟨['X'], [], [], [], 0⟩ := by
  refine ⟨?_, ?_, ?_, by decide, by decide⟩
  · intro r g b
    simp [to_fgcode, toColorCode, fmtAnsicolor, fmtArgs, nextD, pyOrZero, PyVal.toStr]
  · intro n
    simp [to_fgcode, toColorCode, fmtAnsicolor, fmtArgs, nextD, pyOrZero, PyVal.toStr]
  · intro r g
    simp [to_fgcode, toColorCode, fmtAnsicolor, fmtArgs, nextD, pyOrZero, PyVal.toStr,
      pyIntStr, digitsVal]
    norm_num

/-- C7 counterexample: the claim's example inputs — an out-of-range RGB
channel (`fg=(300,0,0)`), an unknown color letter (`fg="q"`), a
wrong-arity tuple (`(255,0)`) — all construct without any exception,
where the claim required a Value/Type error. -/
theorem c7_invalid_color_counterexample :
    to_fgcode (.seq [.int 300, .int 0, .int 0]) =
      .ok (some ('3' :: '8' :: ';' :: '2' :: ';' :: '4' :: '4' :: ';' :: '0' :: ';' :: ['0'])) ∧
    to_fgcode (.str ['q']) = .ok none ∧
    to_fgcode (.seq [.int 255, .int 0]) =
      .ok (some ('3' :: '8' :: ';' :: '2' :: ';' :: '2' :: '5' :: '5' :: ';' :: '0' :: ';' :: ['0'])) ∧
    fromRaw ['X'] (some (.seq [.int 300, .int 0, .int 0])) none [] =
      .ok ⟨['X'], '3' :: '8' :: ';' :: '2' :: ';' :: '4' :: '4' :: ';' :: '0' :: ';' :: ['0'],
        [], [], 0⟩ := by
  refine ⟨by decide, by decide, by decide, by decide⟩

/-- C4.  Parsing the scenario string yields exactly the two segments
("Bold" with style code 1 = bold, then "Plain" with no styles), because
literal text carries the state in effect before it; and serializing the
two segments with styles only enabled reproduces the byte-identical
string. -/
theorem c4_parse_serialize_scenario :
    ansiToSegments ("\x1b[1mBold\x1b[0mPlain".toList) =
      some [⟨"Bold".toList, [], [], ['1'], 0⟩, ⟨"Plain".toList, [], [], [], 0⟩] ∧
    ColorSeg.assemble ⟨"Bold".toList, [], [], ['1'], 0⟩ false false true ++
      ColorSeg.assemble ⟨"Plain".toList, [], [], [], 0⟩ false false true =
      "\x1b[1mBold\x1b[0mPlain".toList := by
  exact ⟨by decide, by decide⟩

/-- C9 (amended).  The style codes the codec recognises are exactly
{1, 2, 3, 4, 5, 7, **8**, 9} — the source's `__STYLE_MAP` also maps
"disappear" to 8, which the claim's list omits.  During parsing a
standalone parameter token is added to the style set iff it is one of
these eight codes; a standalone token that is not a reset, a color code
or an extended-color introducer leaves the state unchanged; and
`"\x1b[8mX"` parses to one segment "X" with style set {8} (not the empty
set the claim states). -/
theorem c9_style_codes_amended :
    (∀ t : List Char, tokenIsStyle t = true ↔ ∃ c, t = [c] ∧ c ∈ styleChars) ∧
    styleChars = ['1', '2', '3', '4', '5', '7', '8', '9'] ∧
    (∀ (c : Char) (st : PState) (rest : List PyVal), c ∈ styleChars →
      procCodes (.str [c] :: rest) st =
        procCodes rest ⟨st.fg, st.bg, sinsert c st.styles⟩) ∧
    (∀ (t : List Char) (st : PState) (rest : List PyVal),
      t ≠ ['0'] → t ≠ [] → styleCharOf t = none →
      t ≠ ['3', '8'] → t ≠ ['4', '8'] → colorREMatch t = none →
      procCodes (.str t :: rest) st = procCodes rest st) ∧
    ansiToSegments ("\x1b[8mX".toList) = some [⟨['X'], [], [], ['8'], 0⟩] ∧
    ansiToSegments ("\x1b[6mX".toList) = some [⟨['X'], [], [], [], 0⟩] := by
  refine ⟨?_, by decide, ?_, ?_, by decide, by decide⟩
  · intro t
    constructor
    · intro h
      match t with
      | [] => simp [tokenIsStyle] at h
      | [c] =>
        refine ⟨c, rfl, ?_⟩
        simp [tokenIsStyle] at h
        simpa using h
      | a :: b :: rest => simp [tokenIsStyle] at h
    · rintro ⟨c, rfl, hc⟩
      simp [tokenIsStyle]
      simpa using hc
  · intro c st rest hc
    have hc0 : c ≠ '0' := by
      intro h
      rw [h] at hc
      simp [styleChars] at hc
    rw [procCodes_cons]
    have ht : (PyVal.str [c]).toStr = [c] := rfl
    rw [ht]
    rw [if_neg (by simp [hc0])]
    have hsc : styleCharOf [c] = some c := by
      simp [styleCharOf]
      simpa using hc
    rw [hsc]
  · intro t st rest ht0 htne hsc h38 h48 hcm
    rw [procCodes_cons]
    have ht : (PyVal.str t).toStr = t := rfl
    rw [ht]
    rw [if_neg (by simp [ht0, htne])]
    rw [hsc]
    have hfa : fmtAnsicolor rest t [] = some ⟨none, none, rest⟩ := by
      simp only [fmtAnsicolor]
      rw [if_pos htne]
      simp only [PyVal.toStr]
      rw [if_neg htne, if_neg h38, if_neg h48, hcm]
    rw [hfa]

/-- C9 witness: the conditional parts applied at concrete inputs — the
style code "4" is added, the unknown standalone code "6" is ignored. -/
theorem c9_style_codes_witness :
    procCodes [.str ['4']] ⟨['3', '1'], [], ['1']⟩ =
      procCodes [] ⟨['3', '1'], [], sinsert '4' ['1']⟩ ∧
    procCodes [.str ['6']] ⟨['3', '1'], [], ['1']⟩ =
      procCodes [] ⟨['3', '1'], [], ['1']⟩ ∧
    tokenIsStyle ['8'] = true := by
  refine ⟨?_, ?_, ?_⟩
  · exact c9_style_codes_amended.2.2.1 '4' ⟨['3', '1'], [], ['1']⟩ [] (by decide)
  · exact c9_style_codes_amended.2.2.2.1 ['6'] ⟨['3', '1'], [], ['1']⟩ []
      (by decide) (by decide) (by decide) (by decide) (by decide) (by decide)
  · exact (c9_style_codes_amended.1 ['8']).mpr ⟨'8', rfl, by decide⟩

/-- C9 counterexample: the claim says the recognised set is exactly
{1,2,3,4,5,7,9} and that parsing `"\x1b[8mX"` yields an empty style set;
the code also recognises 8 ("disappear"), and the parse yields {8}. -/
theorem c9_style_codes_counterexample :
    ansiToSegments ("\x1b[8mX".toList) = some [⟨['X'], [], [], ['8'], 0⟩] ∧
    (['8'] : List Char) ≠ [] ∧ tokenIsStyle ['8'] = true := by
  exact ⟨by decide, by decide, by decide⟩

theorem flatten_cons (seg : ColorSeg) (rest : List ColorSeg) :
    flatten (seg :: rest) = seg.plain.map (fun c => (c, seg.pat)) ++ flatten rest := by
  simp [flatten]

theorem length_flatten (segs : List ColorSeg) : (flatten segs).length = lenOf segs := by
  have h := plainOf_eq_map_fst segs
  have : (plainOf segs).length = ((flatten segs).map Prod.fst).length := by rw [h]
  simpa [lenOf] using this.symm

/-- Take after drop stays inside the left part of an append when the
range fits. -/
theorem take_drop_append_left {α : Type} (A C : List α) (d k : Nat)
    (h : d + k ≤ A.length) : ((A ++ C).drop d).take k = (A.drop d).take k := by
  rw [List.drop_append_eq_append_drop, List.take_append_eq_append_take]
  have h2 : k - (A.drop d).length = 0 := by
    simp only [List.length_drop]
    omega
  rw [h2]
  simp

/-- The segment walk of `__getitem__` produces, at the per-character
level, exactly the requested sub-range of the flattened string. -/
theorem flatten_sliceWalk : ∀ (segs : List ColorSeg) (pos : Nat) (pad : List Char)
    (start stop : Nat), contigFrom segs pos → pad.length = pos →
    flatten (sliceWalk (pad ++ plainOf segs) start stop segs) =
      ((flatten segs).drop (start - pos)).take (stop - max start pos) := by
  intro segs
  induction segs with
  | nil =>
    intro pos pad start stop _ _
    simp [sliceWalk, flatten]
  | cons seg rest ih =>
    intro pos pad start stop hc hlen
    obtain ⟨hpos, hcr⟩ := hc
    have hiend : seg.iend = pos + seg.plain.length := by rw [ColorSeg.iend, hpos]
    have hpd : pad ++ plainOf (seg :: rest) = (pad ++ seg.plain) ++ plainOf rest := by
      simp [plainOf]
    have hlen2 : (pad ++ seg.plain).length = pos + seg.plain.length := by
      simp [hlen]
    have hflen : (seg.plain.map (fun c => (c, seg.pat))).length = seg.plain.length := by
      simp
    rw [sliceWalk]
    by_cases h1 : start ≥ seg.iend
    · rw [if_pos h1]
      rw [hiend] at h1
      rw [hpd, ih (pos + seg.plain.length) (pad ++ seg.plain) start stop hcr hlen2]
      rw [flatten_cons, List.drop_append_eq_append_drop, hflen]
      have hz : (seg.plain.map (fun c => (c, seg.pat))).drop (start - pos) = [] := by
        apply List.drop_eq_nil_of_le
        rw [hflen]
        omega
      rw [hz, List.nil_append]
      have e1 : start - pos - seg.plain.length = start - (pos + seg.plain.length) := by
        omega
      have e2 : stop - max start pos = stop - max start (pos + seg.plain.length) := by
        omega
      rw [e1, e2]
    · rw [if_neg h1]
      rw [hiend] at h1
      by_cases h2 : stop ≤ seg.istart
      · rw [if_pos h2]
        rw [hpos] at h2
        have hz : stop - max start pos = 0 := by omega
        rw [hz]
        simp [flatten]
      · rw [if_neg h2]
        rw [hpos] at h2
        rw [flatten_cons]
        have hchars : ((pad ++ plainOf (seg :: rest)).drop (max seg.istart start)).take
              (min stop seg.iend - max seg.istart start) =
            (seg.plain.drop (max pos start - pos)).take
              (min stop (pos + seg.plain.length) - max pos start) := by
          rw [hpd, hpos, hiend]
          rw [take_drop_append_left _ _ _ _ (by rw [hlen2]; omega)]
          rw [List.drop_append_eq_append_drop]
          rw [show pad.drop (max pos start) = [] from List.drop_eq_nil_of_le (by omega)]
          rw [List.nil_append, hlen]
        rw [ColorSeg.apply]
        simp only
        rw [hchars]
        rw [hpd, ih (pos + seg.plain.length) (pad ++ seg.plain) start stop hcr hlen2]
        have hpa : (⟨(seg.plain.drop (max pos start - pos)).take
            (min stop (pos + seg.plain.length) - max pos start),
            seg.fg, seg.bg, seg.styles, 0⟩ : ColorSeg).pat = seg.pat := rfl
        rw [flatten_cons]
        rw [List.drop_append_eq_append_drop, List.take_append_eq_append_take, hflen]
        have hmapdt : ((⟨(seg.plain.drop (max pos start - pos)).take
            (min stop (pos + seg.plain.length) - max pos start),
            seg.fg, seg.bg, seg.styles, 0⟩ : ColorSeg).plain).map
              (fun c => (c, (⟨(seg.plain.drop (max pos start - pos)).take
                (min stop (pos + seg.plain.length) - max pos start),
                seg.fg, seg.bg, seg.styles, 0⟩ : ColorSeg).pat)) =
            ((seg.plain.map (fun c => (c, seg.pat))).drop (start - pos)).take
              (stop - max start pos) := by
          rw [hpa]
          rw [show (⟨(seg.plain.drop (max pos start - pos)).take
            (min stop (pos + seg.plain.length) - max pos start),
            seg.fg, seg.bg, seg.styles, 0⟩ : ColorSeg).plain =
              (seg.plain.drop (max pos start - pos)).take
                (min stop (pos + seg.plain.length) - max pos start) from rfl]
          rw [List.map_take, List.map_drop]
          have hd : max pos start - pos = start - pos := by omega
          rw [hd]
          rw [List.take_eq_take]
          simp only [List.length_take, List.length_drop, List.length_map]
          omega
        rw [hmapdt]
        simp only [List.length_drop, hflen]
        congr 1
        have e1 : start - pos - seg.plain.length = start - (pos + seg.plain.length) := by
          omega
        have e2 : stop - max start pos - (seg.plain.length - (start - pos)) =
            stop - max start (pos + seg.plain.length) := by
          omega
        rw [e1, e2]

theorem locSlice_nonneg (len : Nat) (x y : Int) (hx : 0 ≤ x) (hy : 0 ≤ y) :
    locSlice len (some (some x, some y)) 0 = (min x.toNat len, min y.toNat len) := by
  have hx2 : ¬ x < 0 := by omega
  have hy2 : ¬ y < 0 := by omega
  simp [locSlice, pyIndices, hx2, hy2, max_eq_left hx, max_eq_left hy]

theorem locSlice_nonneg_none (len : Nat) (x : Int) (hx : 0 ≤ x) :
    locSlice len (some (some x, none)) 0 = (min x.toNat len, len) := by
  have hx2 : ¬ x < 0 := by omega
  simp [locSlice, pyIndices, hx2, max_eq_left hx]

/-- The per-character content of a unit-step slice: exactly the clamped
sub-range of the flattened string. -/
theorem flatten_getitemSlice (segs : List ColorSeg) (hc : contigFrom segs 0)
    (a b : Option Int) :
    flatten (getitemSlice segs a b) =
      ((flatten segs).drop (locSlice (lenOf segs) (some (a, b)) 0).1).take
        ((locSlice (lenOf segs) (some (a, b)) 0).2 -
          (locSlice (lenOf segs) (some (a, b)) 0).1) := by
  rw [getitemSlice, flatten_mkColorStr]
  have h := flatten_sliceWalk segs 0 [] (locSlice (lenOf segs) (some (a, b)) 0).1
    (locSlice (lenOf segs) (some (a, b)) 0).2 hc rfl
  simp only [List.nil_append, Nat.sub_zero, Nat.max_zero] at h
  exact h

/-- C8.  For every `ColorStr` `r` (any segment list satisfying the
contiguity invariant, which every reachable `ColorStr` has, the in-place
updated ones included) and all `0 ≤ i ≤ j ≤ len(r)`: the plain text of
`r[i:j]` is `r.plain[i:j]`; and `r[0:j] + r[j:]` has the same plain text
as `r` and carries, at every character position, the same
(fg, bg, styles) as `r` (the flattened per-character views are equal). -/
theorem c8_slice_consistency (segs : List ColorSeg) (hc : contigFrom segs 0)
    (i j : Nat) (hij : i ≤ j) (hj : j ≤ lenOf segs) :
    plainOf (getitemSlice segs (some (i : Int)) (some (j : Int))) =
      ((plainOf segs).drop i).take (j - i) ∧
    plainOf (concatC (getitemSlice segs (some ((0 : Nat) : Int)) (some (j : Int)))
        (getitemSlice segs (some (j : Int)) none)) =
      plainOf segs ∧
    flatten (concatC (getitemSlice segs (some ((0 : Nat) : Int)) (some (j : Int)))
        (getitemSlice segs (some (j : Int)) none)) =
      flatten segs := by
  have hflat2 : flatten (concatC
      (getitemSlice segs (some ((0 : Nat) : Int)) (some (j : Int)))
      (getitemSlice segs (some (j : Int)) none)) =
      flatten segs := by
    rw [concatC, flatten_mkColorStr, flatten_append]
    rw [flatten_getitemSlice _ hc, flatten_getitemSlice _ hc]
    rw [locSlice_nonneg _ _ _ (Int.natCast_nonneg 0) (Int.natCast_nonneg j)]
    rw [locSlice_nonneg_none _ _ (Int.natCast_nonneg j)]
    simp only [Int.toNat_natCast]
    have h0 : min 0 (lenOf segs) = 0 := by omega
    have hjm : min j (lenOf segs) = j := by omega
    rw [h0, hjm]
    simp only [List.drop_zero, Nat.sub_zero]
    have htk : ((flatten segs).drop j).take (lenOf segs - j) =
        (flatten segs).drop j := by
      apply List.take_of_length_le
      simp only [List.length_drop, length_flatten]
      omega
    rw [htk]
    exact List.take_append_drop j (flatten segs)
  refine ⟨?_, ?_, hflat2⟩
  · rw [plainOf_eq_map_fst, flatten_getitemSlice _ hc]
    rw [locSlice_nonneg _ _ _ (Int.natCast_nonneg i) (Int.natCast_nonneg j)]
    simp only [Int.toNat_natCast]
    have hi : min i (lenOf segs) = i := by omega
    have hjm : min j (lenOf segs) = j := by omega
    rw [hi, hjm]
    rw [List.map_take, List.map_drop, ← plainOf_eq_map_fst]
  · rw [plainOf_eq_map_fst, hflat2, ← plainOf_eq_map_fst]

/-- C8 witness: slice consistency evaluated on the concrete string
"abc" + red "de" with `i = 1`, `j = 3`. -/
theorem c8_slice_consistency_witness :
    plainOf (getitemSlice (mkColorStr [⟨"abc".toList, [], [], [], 0⟩,
        ⟨"de".toList, ['3', '1'], [], [], 0⟩]) (some ((1 : Nat) : Int))
        (some ((3 : Nat) : Int))) =
      "bc".toList ∧
    flatten (concatC
        (getitemSlice (mkColorStr [⟨"abc".toList, [], [], [], 0⟩,
          ⟨"de".toList, ['3', '1'], [], [], 0⟩]) (some ((0 : Nat) : Int))
          (some ((3 : Nat) : Int)))
        (getitemSlice (mkColorStr [⟨"abc".toList, [], [], [], 0⟩,
          ⟨"de".toList, ['3', '1'], [], [], 0⟩]) (some ((3 : Nat) : Int)) none)) =
      flatten (mkColorStr [⟨"abc".toList, [], [], [], 0⟩,
        ⟨"de".toList, ['3', '1'], [], [], 0⟩]) := by
  have h := c8_slice_consistency (mkColorStr [⟨"abc".toList, [], [], [], 0⟩,
    ⟨"de".toList, ['3', '1'], [], [], 0⟩])
    (contig_mkColorStr _) 1 3 (by omega) (by decide)
  refine ⟨?_, h.2.2⟩
  rw [h.1]
  decide

/-- The effective pattern at character position `k` (the claim's
"per-character (fg, bg, styles)"); the default triple is never read at
in-range positions. -/
def patAt (segs : List ColorSeg) (k : Nat) : List Char × List Char × List Char :=
  ((flatten segs).map Prod.snd).getD k ([], [], [])

theorem mkColorStr_head_pat (x : ColorSeg) (l : List ColorSeg) :
    ((mkColorStr (x :: l)).headD ColorSeg.empty).pat = x.pat := by
  rw [mkColorStr]
  obtain ⟨ext, tl, hh⟩ := mergeRun_head l ⟨x.plain, x.fg, x.bg, x.styles, 0⟩
  rw [hh]
  rfl

theorem patAt_eq (segs : List ColorSeg) (k : Nat) :
    patAt segs k = ((flatten segs).map Prod.snd).getD k ([], [], []) := rfl

/-- `getLastD` of a non-empty list ignores the default. -/
theorem getLastD_pat_congr (l : List ColorSeg) (a b : ColorSeg)
    (h : a.pat = b.pat) : (l.getLastD a).pat = (l.getLastD b).pat := by
  cases l with
  | nil => exact h
  | cons x xs => rw [List.getLastD_cons, List.getLastD_cons]

theorem getLastD_map_pat (f : ColorSeg → ColorSeg) (l : List ColorSeg) :
    ∀ a : ColorSeg, (l.map f).getLastD (f a) = f (l.getLastD a) := by
  induction l with
  | nil => intro a; rfl
  | cons x xs ih =>
    intro a
    rw [List.map_cons, List.getLastD_cons, List.getLastD_cons]
    exact ih x

/-- Zipping a list against a constant list of the same length tags every
element with that constant. -/
theorem zip_map_const {α β : Type} : ∀ (A : List α) (l2 : List α) (p : β),
    A.length = l2.length →
    A.zip (l2.map (fun _ => p)) = A.map (fun c => (c, p)) := by
  intro A
  induction A with
  | nil => intro l2 p _; rfl
  | cons x xs ih =>
    intro l2 p h
    cases l2 with
    | nil => simp at h
    | cons y ys =>
      simp only [List.map_cons, List.zip_cons_cons, List.map]
      rw [ih ys p (by simpa using h)]

/-- A slice that starts at 0 with a positive stop keeps the first
segment's pattern at the head (first segment anchored at 0, non-empty). -/
theorem getitemSlice_head_pat (s0 : ColorSeg) (rest : List ColorSeg)
    (his : s0.istart = 0) (h0 : s0.plain ≠ []) (a b : Option Int)
    (hstart : (locSlice (lenOf (s0 :: rest)) (some (a, b)) 0).1 = 0)
    (hstop : 0 < (locSlice (lenOf (s0 :: rest)) (some (a, b)) 0).2) :
    ((getitemSlice (s0 :: rest) a b).headD ColorSeg.empty).pat = s0.pat := by
  rw [getitemSlice]
  rw [sliceWalk]
  have hlen0 : 0 < s0.plain.length := List.length_pos.mpr h0
  rw [if_neg (by rw [hstart, ColorSeg.iend, his]; omega)]
  rw [if_neg (by rw [his]; omega)]
  rw [mkColorStr_head_pat]
  rfl

/-- Walking the whole range reproduces every segment (all segments
non-empty, anchored contiguously after a pad of the right length). -/
theorem sliceWalk_full : ∀ (segs : List ColorSeg) (pos : Nat) (pad : List Char)
    (stop : Nat), contigFrom segs pos → pad.length = pos →
    (∀ s ∈ segs, s.plain ≠ []) → pos + lenOf segs ≤ stop →
    sliceWalk (pad ++ plainOf segs) 0 stop segs =
      segs.map (fun s => s.apply s.plain) := by
  intro segs
  induction segs with
  | nil => intro pos pad stop _ _ _ _; rfl
  | cons seg rest ih =>
    intro pos pad stop hc hlen hne hstop
    obtain ⟨hpos, hcr⟩ := hc
    have hsegne : seg.plain ≠ [] := hne seg (List.mem_cons_self _ _)
    have hn : 0 < seg.plain.length := List.length_pos.mpr hsegne
    have hlenrest : lenOf (seg :: rest) = seg.plain.length + lenOf rest := by
      simp [lenOf, plainOf]
    rw [sliceWalk]
    rw [if_neg (by rw [ColorSeg.iend, hpos]; omega)]
    rw [if_neg (by rw [hpos]; omega)]
    simp only
    have hpd : pad ++ plainOf (seg :: rest) = (pad ++ seg.plain) ++ plainOf rest := by
      simp [plainOf]
    have hlen2 : (pad ++ seg.plain).length = pos + seg.plain.length := by
      simp [hlen]
    have hchars : ((pad ++ plainOf (seg :: rest)).drop (max seg.istart 0)).take
        (min stop seg.iend - max seg.istart 0) = seg.plain := by
      rw [hpd, hpos, ColorSeg.iend, hpos]
      have hmx : max pos 0 = pos := by omega
      have hmn : min stop (pos + seg.plain.length) = pos + seg.plain.length := by
        omega
      rw [hmx, hmn]
      rw [take_drop_append_left _ _ _ _ (by rw [hlen2]; omega)]
      rw [List.drop_append_eq_append_drop]
      rw [show pad.drop pos = [] from List.drop_eq_nil_of_le (by omega)]
      rw [List.nil_append, hlen, Nat.sub_self, List.drop_zero]
      have : pos + seg.plain.length - pos = seg.plain.length := by omega
      rw [this, List.take_length]
    rw [hchars]
    rw [hpd, ih (pos + seg.plain.length) (pad ++ seg.plain) stop hcr hlen2
      (fun s hs => hne s (List.mem_cons_of_mem _ hs)) (by omega)]
    rfl

/-- Through the merge loop, the last segment's pattern is the pattern of
the last input segment (all inputs non-empty). -/
theorem mergeRun_getLastD_pat (rest : List ColorSeg) : ∀ last : ColorSeg,
    (∀ s ∈ rest, s.plain ≠ []) →
    ((mergeRun last rest).getLastD ColorSeg.empty).pat =
      (rest.getLastD last).pat := by
  induction rest with
  | nil => intro last _; rfl
  | cons s rst ih =>
    intro last hne
    have hsne : s.plain ≠ [] := hne s (List.mem_cons_self _ _)
    have hrne : ∀ x ∈ rst, x.plain ≠ [] := fun x hx => hne x (List.mem_cons_of_mem _ hx)
    rw [mergeRun, if_pos (by simpa using hsne)]
    by_cases hpe : PatEq s last
    · rw [if_pos hpe]
      rw [ih _ hrne]
      rw [List.getLastD_cons]
      exact getLastD_pat_congr rst _ s (pat_of_patEq hpe).symm
    · rw [if_neg hpe]
      have hmne := mergeRun_ne_nil rst
        (⟨s.plain, s.fg, s.bg, s.styles, last.istart + last.plain.length⟩ : ColorSeg)
      rw [List.getLastD_cons]
      have hcg : ((mergeRun ⟨s.plain, s.fg, s.bg, s.styles,
          last.istart + last.plain.length⟩ rst).getLastD last) =
          ((mergeRun ⟨s.plain, s.fg, s.bg, s.styles,
          last.istart + last.plain.length⟩ rst).getLastD ColorSeg.empty) := by
        cases hm : mergeRun ⟨s.plain, s.fg, s.bg, s.styles,
            last.istart + last.plain.length⟩ rst with
        | nil => exact absurd hm hmne
        | cons m ms => rw [List.getLastD_cons, List.getLastD_cons]
      rw [hcg, ih _ hrne]
      rw [List.getLastD_cons]
      exact getLastD_pat_congr rst _ s rfl

theorem mkColorStr_getLastD_pat (x : ColorSeg) (l : List ColorSeg)
    (hl : ∀ s ∈ l, s.plain ≠ []) :
    ((mkColorStr (x :: l)).getLastD ColorSeg.empty).pat = (l.getLastD x).pat := by
  rw [mkColorStr, mergeRun_getLastD_pat l _ hl]
  exact getLastD_pat_congr l _ x rfl

/-- A slice covering the whole string keeps the last segment's pattern
(all segments non-empty, contiguity from 0). -/
theorem getitemSlice_getLastD_pat (segs : List ColorSeg) (hc : contigFrom segs 0)
    (hne : segs ≠ []) (hall : ∀ s ∈ segs, s.plain ≠ []) (a b : Option Int)
    (hstart : (locSlice (lenOf segs) (some (a, b)) 0).1 = 0)
    (hstop : lenOf segs ≤ (locSlice (lenOf segs) (some (a, b)) 0).2) :
    ((getitemSlice segs a b).getLastD ColorSeg.empty).pat =
      (segs.getLastD ColorSeg.empty).pat := by
  rw [getitemSlice]
  rw [hstart]
  have hw := sliceWalk_full segs 0 []
    (locSlice (lenOf segs) (some (a, b)) 0).2 hc rfl hall (by omega)
  rw [List.nil_append] at hw
  rw [hw]
  cases segs with
  | nil => exact absurd rfl hne
  | cons s0 rest =>
    rw [List.map_cons]
    rw [mkColorStr_getLastD_pat _ _ (by
      intro s hs
      obtain ⟨x, hx, hxs⟩ := List.mem_map.mp hs
      have : x.plain ≠ [] := hall x (List.mem_cons_of_mem _ hx)
      rw [← hxs]
      simpa [ColorSeg.apply] using this)]
    rw [getLastD_map_pat (fun s => s.apply s.plain) rest s0]
    rw [List.getLastD_cons]
    have : ((rest.getLastD s0).apply (rest.getLastD s0).plain).pat =
        (rest.getLastD s0).pat := rfl
    rw [this]

theorem strSlice_nonneg (s : List Char) (x y : Int) (hx : 0 ≤ x) (hy : 0 ≤ y) :
    strSlice s (some x) (some y) =
      (s.drop (min x.toNat s.length)).take
        (min y.toNat s.length - min x.toNat s.length) := by
  have hx2 : ¬ x < 0 := by omega
  have hy2 : ¬ y < 0 := by omega
  simp [strSlice, pyIndices, hx2, hy2]

theorem strSlice_nonneg_none (s : List Char) (x : Int) (hx : 0 ≤ x) :
    strSlice s (some x) none = s.drop (min x.toNat s.length) := by
  have hx2 : ¬ x < 0 := by omega
  simp [strSlice, pyIndices, hx2]

/-- The middle pieces of `apply`: cutting `mid` along sub-pattern
boundaries and re-tagging each cut with its sub-segment's pattern
produces, per character, `mid` zipped with the pattern's flattened
attribute stream. -/
theorem flatten_midPieces : ∀ (pattern : List ColorSeg) (pos : Nat)
    (mid : List Char), contigFrom pattern pos →
    mid.length = pos + lenOf pattern →
    flatten (pattern.map (fun seg =>
      seg.apply ((mid.drop seg.istart).take (seg.iend - seg.istart)))) =
      (mid.drop pos).zip ((flatten pattern).map Prod.snd) := by
  intro pattern
  induction pattern with
  | nil =>
    intro pos mid _ _
    simp [flatten]
  | cons seg rest ih =>
    intro pos mid hc hlen
    obtain ⟨hpos, hcr⟩ := hc
    have hlenc : lenOf (seg :: rest) = seg.plain.length + lenOf rest := by
      simp [lenOf, plainOf]
    have hA : (mid.drop seg.istart).take (seg.iend - seg.istart) =
        (mid.drop pos).take seg.plain.length := by
      have h1 : seg.iend - seg.istart = seg.plain.length := by
        rw [ColorSeg.iend]; omega
      rw [h1, hpos]
    have hClen : ((mid.drop pos).take seg.plain.length).length = seg.plain.length := by
      rw [List.length_take, List.length_drop]; omega
    have hApp : mid.drop pos =
        (mid.drop pos).take seg.plain.length ++ mid.drop (pos + seg.plain.length) := by
      rw [show mid.drop (pos + seg.plain.length) =
          ((mid.drop pos).drop seg.plain.length) by rw [List.drop_drop]]
      rw [List.take_append_drop]
    rw [List.map_cons, flatten_cons, flatten_cons]
    rw [ih (pos + seg.plain.length) mid hcr (by omega)]
    simp only [ColorSeg.apply, ColorSeg.pat]
    rw [hA]
    rw [List.map_append, List.map_map]
    have hconst : (List.map (Prod.snd ∘ fun c =>
          (c, (seg.fg, seg.bg, seg.styles))) seg.plain) =
        seg.plain.map (fun _ =>
          ((seg.fg, seg.bg, seg.styles) : List Char × List Char × List Char)) := rfl
    rw [hconst]
    conv_rhs => rw [hApp]
    rw [List.zip_append (by rw [hClen]; simp)]
    rw [zip_map_const _ seg.plain _ (by rw [hClen])]

theorem lenOf_cons (s : ColorSeg) (rest : List ColorSeg) :
    lenOf (s :: rest) = s.plain.length + lenOf rest := by
  simp [lenOf, plainOf]

theorem lenOf_pos (self : List ColorSeg) (hsne : self ≠ [])
    (hall : ∀ s ∈ self, s.plain ≠ []) : 0 < lenOf self := by
  cases self with
  | nil => exact absurd rfl hsne
  | cons s0 r =>
    rw [lenOf_cons]
    have := List.length_pos.mpr (hall s0 (List.mem_cons_self _ _))
    omega

theorem zip_take_right {α β : Type} : ∀ (A : List α) (S : List β) (n : Nat),
    A.length ≤ n → A.zip (S.take n) = A.zip S := by
  intro A
  induction A with
  | nil => intro S n _; simp
  | cons x xs ih =>
    intro S n h
    cases S with
    | nil => simp
    | cons y ys =>
      cases n with
      | zero => simp at h
      | succ m =>
        simp only [List.take_succ_cons, List.zip_cons_cons]
        rw [ih ys m (by simpa using h)]

theorem contig_getitemSlice (segs : List ColorSeg) (a b : Option Int) :
    contigFrom (getitemSlice segs a b) 0 := by
  rw [getitemSlice]
  exact contig_mkColorStr _

theorem apply_plain (s : ColorSeg) (t : List Char) : (s.apply t).plain = t := rfl

theorem apply_pat (s : ColorSeg) (t : List Char) : (s.apply t).pat = s.pat := rfl

theorem flatten_singleton (x : ColorSeg) :
    flatten [x] = x.plain.map (fun c => (c, x.pat)) := by
  simp [flatten]

/-- Per-character content of `ColorStr.apply` from the left at a
non-negative start index overlapping the target: the left overhang is the
pattern's first segment's attributes (extend covering the left) or the
target's own flattened prefix; the middle zips the covered text with the
pattern's attribute stream; the right overhang (present when the pattern
ends before the target) is the pattern's last segment's attributes
(extend covering the right) or the target's own flattened suffix. -/
theorem applyPat_flatten (self target : List ColorSeg) (hcs : contigFrom self 0)
    (hct : contigFrom target 0) (hsne : self ≠ [])
    (hall : ∀ s ∈ self, s.plain ≠ [])
    (si : Nat) (extend : Option Extend) (hov : si < lenOf target) :
    flatten (applyPat self target ((si : Nat) : Int) extend true) =
      (if extend = some .left ∨ extend = some .all then
        ((plainOf target).take si).map
          (fun c => (c, (self.headD ColorSeg.empty).pat))
      else (flatten target).take si) ++
      (((plainOf target).drop si).take (min (lenOf self) (lenOf target - si))).zip
        ((flatten self).map Prod.snd) ++
      (if si + lenOf self < lenOf target then
        (if extend = some .right ∨ extend = some .all then
          ((plainOf target).drop (si + lenOf self)).map
            (fun c => (c, (self.getLastD ColorSeg.empty).pat))
        else (flatten target).drop (si + lenOf self))
      else []) := by
  have hP : 0 < lenOf self := lenOf_pos self hsne hall
  have hov' : si < (plainOf target).length := hov
  have hP' : 0 < (plainOf self).length := hP
  have hTf : (flatten target).length = (plainOf target).length := length_flatten target
  have hPf : (flatten self).length = (plainOf self).length := length_flatten self
  rw [applyPat]
  rw [if_neg (show ¬(((plainOf target).length : Int) = 0) by omega)]
  simp only [if_true, eq_self_iff_true, lenOf]
  rw [flatten_mkColorStr, flatten_append, flatten_append]
  congr 1
  · congr 1
    -- left piece
    · by_cases hsi0 : 0 < si
      · rw [if_pos (show ((si : Nat) : Int) > 0 by exact_mod_cast hsi0)]
        by_cases hel : extend = some .left ∨ extend = some .all
        · rw [if_pos hel, if_pos hel]
          obtain ⟨s0, rest, rfl⟩ : ∃ s0 rest, self = s0 :: rest := by
            cases self with
            | nil => exact absurd rfl hsne
            | cons a l => exact ⟨a, l, rfl⟩
          have hpat := getitemSlice_head_pat s0 rest hcs.1
            (hall s0 (List.mem_cons_self _ _))
            (some ((-(si : Int)) ⊔ 0))
            (some ((((plainOf (s0 :: rest)).length : Int) -
              (((si : Int) + ((plainOf (s0 :: rest)).length : Int)) -
                ((plainOf target).length : Int))) ⊓
                  ((plainOf (s0 :: rest)).length : Int)))
            (by rw [show lenOf (s0 :: rest) = (plainOf (s0 :: rest)).length from rfl,
                  locSlice_nonneg _ _ _ (by omega) (by omega)]; omega)
            (by rw [show lenOf (s0 :: rest) = (plainOf (s0 :: rest)).length from rfl,
                  locSlice_nonneg _ _ _ (by omega) (by omega)]; omega)
          rw [flatten_singleton]
          simp only [apply_plain, apply_pat]
          rw [strSlice_nonneg _ _ _ (by omega) (by omega)]
          simp only [hpat, Int.toNat_natCast, Int.toNat_zero]
          rw [show min 0 (plainOf target).length = 0 by omega, List.drop_zero]
          rw [show min si (plainOf target).length - 0 = si by omega]
          simp only [List.headD_cons]
        · rw [if_neg hel, if_neg hel]
          rw [flatten_getitemSlice target hct]
          rw [locSlice_nonneg _ _ _ (by omega) (Int.natCast_nonneg si)]
          simp only [Int.toNat_natCast, Int.toNat_zero, lenOf]
          rw [show min 0 (plainOf target).length = 0 by omega, List.drop_zero]
          rw [show min si (plainOf target).length - 0 = si by omega]
      · rw [if_neg (show ¬(((si : Nat) : Int) > 0) by omega)]
        have h0 : si = 0 := by omega
        subst h0
        by_cases hel : extend = some .left ∨ extend = some .all
        · rw [if_pos hel]
          simp [flatten]
        · rw [if_neg hel]
          simp [flatten]
    -- middle piece
    · rw [if_pos (show (((si : Nat) : Int) < ((plainOf target).length : Int) ∧
        ((si : Int) + ((plainOf self).length : Int)) > 0) from ⟨by omega, by omega⟩)]
      have hmidT : strSlice (plainOf target) (some (((si : Nat) : Int) ⊔ 0))
          (some (((si : Nat) : Int) + ((plainOf self).length : Int))) =
          ((plainOf target).drop si).take
            (min (si + (plainOf self).length) (plainOf target).length - si) := by
        rw [strSlice_nonneg _ _ _ (by omega) (by omega)]
        rw [show min (((si : Nat) : Int) ⊔ 0).toNat (plainOf target).length = si by
          omega]
        congr 1
      rw [hmidT]
      have hpatflat : flatten (getitemSlice self (some ((-((si : Nat) : Int)) ⊔ 0))
          (some ((((plainOf self).length : Int) -
            ((((si : Nat) : Int) + ((plainOf self).length : Int)) -
              ((plainOf target).length : Int))) ⊓ ((plainOf self).length : Int)))) =
          (flatten self).take (min ((plainOf target).length - si)
            (plainOf self).length) := by
        rw [flatten_getitemSlice self hcs]
        rw [locSlice_nonneg _ _ _ (by omega) (by omega)]
        simp only [lenOf]
        rw [show min ((-((si : Nat) : Int)) ⊔ 0).toNat (plainOf self).length = 0 by
          omega]
        rw [List.drop_zero]
        congr 1
        omega
      have hlenpat : lenOf (getitemSlice self (some ((-((si : Nat) : Int)) ⊔ 0))
          (some ((((plainOf self).length : Int) -
            ((((si : Nat) : Int) + ((plainOf self).length : Int)) -
              ((plainOf target).length : Int))) ⊓ ((plainOf self).length : Int)))) =
          min ((plainOf target).length - si) (plainOf self).length := by
        rw [← length_flatten, hpatflat]
        simp only [List.length_take]
        omega
      rw [flatten_midPieces _ 0 _ (contig_getitemSlice _ _ _) (by
        rw [hlenpat]
        simp only [List.length_take, List.length_drop]
        omega)]
      rw [List.drop_zero, hpatflat, List.map_take]
      rw [zip_take_right _ _ _ (by
        simp only [List.length_take, List.length_drop]
        omega)]
      congr 2
      omega
  -- right piece
  · by_cases hr : si + (plainOf self).length < (plainOf target).length
    · rw [if_pos (show (((si : Nat) : Int) + ((plainOf self).length : Int)) <
        ((plainOf target).length : Int) by omega)]
      rw [if_pos hr]
      by_cases her : extend = some .right ∨ extend = some .all
      · rw [if_pos her, if_pos her]
        have hlast := getitemSlice_getLastD_pat self hcs hsne hall
          (some ((-((si : Nat) : Int)) ⊔ 0))
          (some ((((plainOf self).length : Int) -
            ((((si : Nat) : Int) + ((plainOf self).length : Int)) -
              ((plainOf target).length : Int))) ⊓ ((plainOf self).length : Int)))
          (by rw [show lenOf self = (plainOf self).length from rfl,
                locSlice_nonneg _ _ _ (by omega) (by omega)]; omega)
          (by rw [show lenOf self = (plainOf self).length from rfl,
                locSlice_nonneg _ _ _ (by omega) (by omega)]
              simp only
              omega)
        rw [flatten_singleton]
        simp only [apply_plain, apply_pat]
        rw [strSlice_nonneg_none _ _ (by omega)]
        simp only [hlast]
        rw [show min ((((si : Nat) : Int) + ((plainOf self).length : Int)) ⊔ 0).toNat
          (plainOf target).length = si + (plainOf self).length by omega]
      · rw [if_neg her, if_neg her]
        rw [flatten_getitemSlice target hct]
        rw [locSlice_nonneg_none _ _ (by omega)]
        simp only [lenOf]
        rw [show min ((((si : Nat) : Int) + ((plainOf self).length : Int)) ⊔ 0).toNat
          (plainOf target).length = si + (plainOf self).length by omega]
        apply List.take_of_length_le
        simp only [List.length_drop]
        omega
    · rw [if_neg (show ¬((((si : Nat) : Int) + ((plainOf self).length : Int)) <
        ((plainOf target).length : Int)) by omega)]
      rw [if_neg hr]
      simp [flatten]

theorem getD_append_left' {α : Type} (A B : List α) (k : Nat) (hk : k < A.length)
    (d : α) : (A ++ B).getD k d = A.getD k d := by
  rw [List.getD_eq_getElem?_getD, List.getD_eq_getElem?_getD, List.getElem?_append,
    if_pos hk]

theorem getD_append_right' {α : Type} (A B : List α) (k : Nat) (hk : A.length ≤ k)
    (d : α) : (A ++ B).getD k d = B.getD (k - A.length) d := by
  rw [List.getD_eq_getElem?_getD, List.getD_eq_getElem?_getD, List.getElem?_append,
    if_neg (by omega)]

theorem getD_take' {α : Type} (l : List α) (n k : Nat) (hk : k < n) (d : α) :
    (l.take n).getD k d = l.getD k d := by
  rw [List.getD_eq_getElem?_getD, List.getD_eq_getElem?_getD, List.getElem?_take,
    if_pos hk]

theorem getD_drop' {α : Type} (l : List α) (m k : Nat) (d : α) :
    (l.drop m).getD k d = l.getD (m + k) d := by
  rw [List.getD_eq_getElem?_getD, List.getD_eq_getElem?_getD, List.getElem?_drop]

theorem getD_map_pair_snd (l : List Char)
    (p : List Char × List Char × List Char) (k : Nat) (hk : k < l.length)
    (d : List Char × List Char × List Char) :
    ((l.map (fun c => (c, p))).map Prod.snd).getD k d = p := by
  rw [List.map_map]
  rw [List.getD_eq_getElem _ d (by simpa using hk), List.getElem_map]
  rfl

theorem map_fst_pair (l : List Char) (p : List Char × List Char × List Char) :
    (l.map (fun c => (c, p))).map Prod.fst = l := by
  induction l with
  | nil => rfl
  | cons x xs ih => simp only [List.map_cons, ih]

/-- C3 (amended).  For `ColorStr.apply` from the left at a non-negative
start index that overlaps the target (`start_idx < len(target)`), with a
pattern whose segments all carry text: characters of the target left of
`start_idx` receive the attributes of the pattern's first segment when
`extend` is "left" or "all" and keep the target's own original pattern
when `extend` is `None` or "right"; characters right of
`start_idx + len(pattern)` (when the pattern ends before the target)
receive the attributes of the pattern's last segment when `extend` is
"right" or "all" and keep the target's own pattern when `extend` is
`None` or "left"; the plain text is always preserved.  The claim's
concrete example holds: applying one segment "AB" with fg red onto
"XXXXXX" at `start_idx = 2` with `extend = "all"` yields the single
segment "XXXXXX" with fg red.  (The original claim is wrong without the
overlap proviso: with `start_idx ≥ len(target)` the clipped pattern is
empty and extension stamps no attributes at all.) -/
theorem c3_apply_overhang_amended (self target : List ColorSeg)
    (hcs : contigFrom self 0) (hct : contigFrom target 0)
    (hsne : self ≠ []) (hall : ∀ s ∈ self, s.plain ≠ [])
    (si : Nat) (extend : Option Extend) (hov : si < lenOf target) :
    ((extend = some .left ∨ extend = some .all) →
      ∀ k, k < si →
        patAt (applyPat self target ((si : Nat) : Int) extend true) k =
          (self.headD ColorSeg.empty).pat) ∧
    ((extend = none ∨ extend = some .right) →
      ∀ k, k < si →
        patAt (applyPat self target ((si : Nat) : Int) extend true) k =
          patAt target k) ∧
    (si + lenOf self < lenOf target →
      ((extend = some .right ∨ extend = some .all) →
        ∀ k, si + lenOf self ≤ k → k < lenOf target →
          patAt (applyPat self target ((si : Nat) : Int) extend true) k =
            (self.getLastD ColorSeg.empty).pat) ∧
      ((extend = none ∨ extend = some .left) →
        ∀ k, si + lenOf self ≤ k → k < lenOf target →
          patAt (applyPat self target ((si : Nat) : Int) extend true) k =
            patAt target k)) ∧
    plainOf (applyPat self target ((si : Nat) : Int) extend true) =
      plainOf target ∧
    applyPat (mkColorStr [⟨['A','B'], ['3','1'], [], [], 0⟩])
      (mkColorStr [⟨['X','X','X','X','X','X'], [], [], [], 0⟩]) ((2 : Nat) : Int)
      (some .all) true =
      [⟨['X','X','X','X','X','X'], ['3','1'], [], [], 0⟩] := by
  have hP : 0 < lenOf self := lenOf_pos self hsne hall
  have hTrfl : (plainOf target).length = lenOf target := rfl
  have hPrfl : (plainOf self).length = lenOf self := rfl
  have hTf : (flatten target).length = lenOf target := length_flatten target
  have hPf : (flatten self).length = lenOf self := length_flatten self
  have hfl := applyPat_flatten self target hcs hct hsne hall si extend hov
  have hLlen : ((if extend = some .left ∨ extend = some .all then
      ((plainOf target).take si).map
        (fun c => (c, (self.headD ColorSeg.empty).pat))
    else (flatten target).take si)).length = si := by
    split
    · simp only [List.length_map, List.length_take]
      omega
    · simp only [List.length_take]
      omega
  have hMlen : ((((plainOf target).drop si).take
      (min (lenOf self) (lenOf target - si))).zip
        ((flatten self).map Prod.snd)).length =
      min (lenOf self) (lenOf target - si) := by
    simp only [List.length_zip, List.length_take, List.length_drop, List.length_map]
    omega
  refine ⟨?_, ?_, ?_, ?_, by decide⟩
  · -- left overhang, extended
    intro hel k hk
    rw [patAt, hfl, if_pos hel]
    rw [List.map_append, List.map_append]
    rw [getD_append_left' _ _ k (by
      simp only [List.length_append, List.length_map, List.length_take]
      omega)]
    rw [getD_append_left' _ _ k (by
      simp only [List.length_map, List.length_take]
      omega)]
    exact getD_map_pair_snd _ _ k (by simp only [List.length_take]; omega) _
  · -- left overhang, not extended
    intro hel k hk
    have hnl : ¬(extend = some .left ∨ extend = some .all) := by
      rcases hel with h | h <;> subst h <;> simp
    rw [patAt, hfl, if_neg hnl]
    rw [List.map_append, List.map_append]
    rw [getD_append_left' _ _ k (by
      simp only [List.length_append, List.length_map, List.length_take]
      omega)]
    rw [getD_append_left' _ _ k (by
      simp only [List.length_map, List.length_take]
      omega)]
    rw [List.map_take]
    rw [getD_take' _ _ _ hk]
    rfl
  · -- right overhang
    intro hr
    constructor
    · intro her k hk1 hk2
      rw [patAt, hfl, if_pos hr, if_pos her]
      rw [List.map_append, List.map_append]
      rw [getD_append_right' _ _ k (by
        simp only [List.length_append, List.length_map, hLlen, hMlen]
        omega)]
      simp only [List.length_append, List.length_map, hLlen, hMlen]
      rw [show si + min (lenOf self) (lenOf target - si) = si + lenOf self by omega]
      exact getD_map_pair_snd _ _ _ (by simp only [List.length_drop]; omega) _
    · intro her k hk1 hk2
      have hnr : ¬(extend = some .right ∨ extend = some .all) := by
        rcases her with h | h <;> subst h <;> simp
      rw [patAt, hfl, if_pos hr, if_neg hnr]
      rw [List.map_append, List.map_append]
      rw [getD_append_right' _ _ k (by
        simp only [List.length_append, List.length_map, hLlen, hMlen]
        omega)]
      simp only [List.length_append, List.length_map, hLlen, hMlen]
      rw [show si + min (lenOf self) (lenOf target - si) = si + lenOf self by omega]
      rw [List.map_drop]
      rw [getD_drop']
      rw [show si + lenOf self + (k - (si + lenOf self)) = k by omega]
      rfl
  · -- plain text preserved
    rw [plainOf_eq_map_fst, hfl]
    by_cases hr : si + lenOf self < lenOf target
    · rw [if_pos hr]
      rw [List.map_append, List.map_append]
      have h1 : ((if extend = some .left ∨ extend = some .all then
          ((plainOf target).take si).map
            (fun c => (c, (self.headD ColorSeg.empty).pat))
        else (flatten target).take si)).map Prod.fst = (plainOf target).take si := by
        split
        · exact map_fst_pair _ _
        · rw [List.map_take, ← plainOf_eq_map_fst]
      have h2 : (((((plainOf target).drop si).take
          (min (lenOf self) (lenOf target - si))).zip
            ((flatten self).map Prod.snd))).map Prod.fst =
          ((plainOf target).drop si).take (min (lenOf self) (lenOf target - si)) := by
        apply List.map_fst_zip
        simp only [List.length_take, List.length_drop, List.length_map]
        omega
      have h3 : ((if extend = some .right ∨ extend = some .all then
          ((plainOf target).drop (si + lenOf self)).map
            (fun c => (c, (self.getLastD ColorSeg.empty).pat))
        else (flatten target).drop (si + lenOf self))).map Prod.fst =
          (plainOf target).drop (si + lenOf self) := by
        split
        · exact map_fst_pair _ _
        · rw [List.map_drop, ← plainOf_eq_map_fst]
      rw [h1, h2, h3]
      rw [show min (lenOf self) (lenOf target - si) = lenOf self by omega]
      rw [show (plainOf target).drop (si + lenOf self) =
        ((plainOf target).drop si).drop (lenOf self) by rw [List.drop_drop]]
      rw [List.append_assoc, List.take_append_drop, List.take_append_drop]
    · rw [if_neg hr]
      rw [List.map_append, List.map_append]
      have h1 : ((if extend = some .left ∨ extend = some .all then
          ((plainOf target).take si).map
            (fun c => (c, (self.headD ColorSeg.empty).pat))
        else (flatten target).take si)).map Prod.fst = (plainOf target).take si := by
        split
        · exact map_fst_pair _ _
        · rw [List.map_take, ← plainOf_eq_map_fst]
      have h2 : (((((plainOf target).drop si).take
          (min (lenOf self) (lenOf target - si))).zip
            ((flatten self).map Prod.snd))).map Prod.fst =
          ((plainOf target).drop si).take (min (lenOf self) (lenOf target - si)) := by
        apply List.map_fst_zip
        simp only [List.length_take, List.length_drop, List.length_map]
        omega
      rw [h1, h2]
      rw [show min (lenOf self) (lenOf target - si) = lenOf target - si by omega]
      rw [show ((plainOf target).drop si).take (lenOf target - si) =
        (plainOf target).drop si from List.take_of_length_le (by
          simp only [List.length_drop]; omega)]
      simp only [List.map_nil, List.append_nil]
      exact List.take_append_drop si (plainOf target)

/-- C3 witness: the amended theorem applied to the claim's concrete
example — pattern = one segment "AB" with fg red (code "31"), target =
"XXXXXX", `start_idx = 2`, `extend = "all"`: position 0 (left overhang)
and position 5 (right overhang) both carry fg red. -/
theorem c3_apply_overhang_witness :
    patAt (applyPat (mkColorStr [⟨['A','B'], ['3','1'], [], [], 0⟩])
      (mkColorStr [⟨['X','X','X','X','X','X'], [], [], [], 0⟩]) ((2 : Nat) : Int)
      (some .all) true) 0 = (['3','1'], [], []) ∧
    patAt (applyPat (mkColorStr [⟨['A','B'], ['3','1'], [], [], 0⟩])
      (mkColorStr [⟨['X','X','X','X','X','X'], [], [], [], 0⟩]) ((2 : Nat) : Int)
      (some .all) true) 5 = (['3','1'], [], []) := by
  have h := c3_apply_overhang_amended (mkColorStr [⟨['A','B'], ['3','1'], [], [], 0⟩])
    (mkColorStr [⟨['X','X','X','X','X','X'], [], [], [], 0⟩])
    (contig_mkColorStr _) (contig_mkColorStr _) (by decide) (by decide)
    2 (some .all) (by decide)
  constructor
  · exact (h.1 (Or.inr rfl) 0 (by omega)).trans (by decide)
  · exact ((h.2.2.1 (by decide)).1 (Or.inr rfl) 5 (by decide) (by decide)).trans
      (by decide)

/-- C3 counterexample to the original claim: pattern "AB" with fg red
applied to target "XX" at `start_idx = 2` with `extend = "all"`.  Both
target characters are left of `start_idx`, so by the claim they should
receive the pattern's first segment's attributes (fg red); in the code
the clipped pattern is empty, its head is the default empty segment, and
the result is plain "XX" with no pattern at all. -/
theorem c3_apply_overhang_counterexample :
    applyPat (mkColorStr [⟨['A','B'], ['3','1'], [], [], 0⟩])
      (mkColorStr [⟨['X','X'], [], [], [], 0⟩]) ((2 : Nat) : Int) (some .all) true =
      [⟨['X','X'], [], [], [], 0⟩] ∧
    patAt (applyPat (mkColorStr [⟨['A','B'], ['3','1'], [], [], 0⟩])
      (mkColorStr [⟨['X','X'], [], [], [], 0⟩]) ((2 : Nat) : Int) (some .all) true) 0 ≠
      ((mkColorStr [⟨['A','B'], ['3','1'], [], [], 0⟩]).headD ColorSeg.empty).pat := by
  exact ⟨by decide, by decide⟩

theorem lenOf_mem_le (sg : ColorSeg) : ∀ (segs : List ColorSeg), sg ∈ segs →
    sg.plain.length ≤ lenOf segs := by
  intro segs
  induction segs with
  | nil => intro h; simp at h
  | cons x xs ih =>
    intro h
    rw [lenOf_cons]
    rcases List.mem_cons.mp h with h | h
    · subst h; omega
    · have := ih h; omega

theorem segEqual_plain_false (seg oseg : ColorSeg)
    (at_ : Option (Option Int × Option Int)) (off : Nat)
    (ho : oseg.fg = [] ∧ oseg.bg = [] ∧ oseg.styles = [])
    (hnp : ¬ seg.isplain) :
    segEqual seg oseg at_ off = false := by
  rw [segEqual]
  simp only [ho.1, ho.2.1, ho.2.2]
  rw [ColorSeg.isplain] at hnp
  by_cases h1 : seg.fg = []
  · by_cases h2 : seg.bg = []
    · have h3 : seg.styles ≠ [] := fun h3 => hnp ⟨h1, h2, h3⟩
      simp [h3]
    · simp [h2]
  · simp [h1]

/-- The segment loop of `equal` can never report `True` when some
segment with non-empty text carries a pattern and all parsed segments of
the other side are pattern-free. -/
theorem equalWalk_ne_true : ∀ (segs : List ColorSeg) (pos L : Nat)
    (oss : List ColorSeg) (idx : Nat),
    contigFrom segs pos →
    (∀ o ∈ oss, o.fg = [] ∧ o.bg = [] ∧ o.styles = []) →
    (∃ sg ∈ segs, sg.plain ≠ [] ∧ ¬ sg.isplain) →
    pos + lenOf segs ≤ L →
    equalWalk 0 L oss idx segs ≠ some true := by
  intro segs
  induction segs with
  | nil =>
    intro pos L oss idx _ _ hex _
    rcases hex with ⟨sg, hmem, _⟩
    simp at hmem
  | cons seg rest ih =>
    intro pos L oss idx hc hoss hex hstop
    obtain ⟨hpos, hcr⟩ := hc
    have hiend : seg.iend = seg.istart + seg.plain.length := rfl
    rw [lenOf_cons] at hstop
    rw [equalWalk]
    by_cases h1 : 0 ≥ seg.iend
    · rw [if_pos h1]
      have hplain : seg.plain = [] := by
        rw [hiend] at h1
        exact List.length_eq_zero.mp (by omega)
      refine ih (pos + seg.plain.length) L oss idx hcr hoss ?_ (by omega)
      rcases hex with ⟨sg, hmem, hp, hnp⟩
      rcases List.mem_cons.mp hmem with h | h
      · exact absurd (h ▸ hplain) hp
      · exact ⟨sg, h, hp, hnp⟩
    · rw [if_neg h1]
      by_cases h2 : L ≤ seg.istart
      · exfalso
        rcases hex with ⟨sg, hmem, hp, _⟩
        have hle := lenOf_mem_le sg _ hmem
        have hpl : 0 < sg.plain.length := List.length_pos.mpr hp
        rw [lenOf_cons] at hle
        omega
      · rw [if_neg h2]
        cases hget : oss.get? idx with
        | none => simp
        | some oseg =>
          simp only
          have ho := hoss oseg (List.get?_mem hget)
          by_cases hsp : seg.isplain
          · have hex' : ∃ sg ∈ rest, sg.plain ≠ [] ∧ ¬ sg.isplain := by
              rcases hex with ⟨sg, hmem, hp, hnp⟩
              rcases List.mem_cons.mp hmem with h | h
              · exact absurd (h ▸ hsp) hnp
              · exact ⟨sg, h, hp, hnp⟩
            by_cases heq : segEqual seg oseg
                (some (some ((max seg.istart 0 : Nat) : Int),
                  some ((min L seg.iend : Nat) : Int))) seg.istart = true
            · rw [if_pos heq]
              exact ih (pos + seg.plain.length) L oss (idx + 1) hcr hoss hex'
                (by omega)
            · rw [if_neg heq]
              simp
          · rw [if_neg (by
              rw [segEqual_plain_false seg oseg _ _ ho hsp]
              simp)]
            simp

/-- C10 (amended).  Equality is pattern-sensitive for patterns on
visible text: for every `ColorStr` (any contiguous segment list) in
which at least one segment with NON-EMPTY text carries a non-empty fg,
bg or styles, and every plain string containing no ANSI escape
introducer, `c == s` never evaluates to `True` (it returns `False`, or
raises `IndexError` when an earlier segment compares equal and the
parsed other side runs out of segments).  (The original claim quantified
over any segment with a pattern; it fails for patterns carried only by
zero-length segments, which the `equal` loop skips.) -/
theorem c10_equality_pattern_amended (segs : List ColorSeg) (hc : contigFrom segs 0)
    (hseg : ∃ sg ∈ segs, sg.plain ≠ [] ∧ ¬ sg.isplain)
    (s : List Char) (hnoesc : hasEscBracket s = false) :
    eqStr segs s ≠ some true := by
  rcases hseg with ⟨sg, hmem, hp, hnp⟩
  have hL : 0 < lenOf segs :=
    lt_of_lt_of_le (List.length_pos.mpr hp) (lenOf_mem_le sg segs hmem)
  rw [eqStr, equalStr]
  rw [show locSlice (lenOf segs) none 0 = (0, lenOf segs) from rfl]
  simp only
  by_cases hlen : ((s.length : Int) ≠ ((lenOf segs : Int) - ((0 : Nat) : Int)))
  · rw [if_pos hlen]
    simp
  · rw [if_neg hlen]
    rw [if_neg (show ¬((0 : Nat) = lenOf segs) by omega)]
    rw [if_neg (show ¬(isplainAll segs = true) from fun hall =>
      hnp (by simpa using List.all_eq_true.mp hall sg hmem))]
    by_cases hs : s = []
    · subst hs
      rw [show ansiToSegments [] = some [] from rfl]
      simp only
      exact equalWalk_ne_true segs 0 (lenOf segs) [] 0 hc (by simp)
        ⟨sg, hmem, hp, hnp⟩ (by omega)
    · rw [ansiToSegments, if_neg hs, if_pos (by simp [hnoesc])]
      simp only
      refine equalWalk_ne_true segs 0 (lenOf segs) [⟨s, [], [], [], 0⟩] 0 hc ?_
        ⟨sg, hmem, hp, hnp⟩ (by omega)
      intro o ho
      rcases List.mem_singleton.mp ho with rfl
      exact ⟨rfl, rfl, rfl⟩
/-- C10 counterexample to the original claim: the `ColorStr` built from
a zero-length segment with fg red followed by plain "ab" has a segment
with non-empty fg, yet comparing it with the plain string "ab" returns
`True` — the `equal` loop skips the zero-length patterned segment. -/
theorem c10_equality_pattern_counterexample :
    mkColorStr [⟨[], ['3', '1'], [], [], 0⟩, ⟨['a', 'b'], [], [], [], 0⟩] =
      [⟨[], ['3', '1'], [], [], 0⟩, ⟨['a', 'b'], [], [], [], 0⟩] ∧
    (⟨[], ['3', '1'], [], [], 0⟩ : ColorSeg).fg ≠ [] ∧
    eqStr (mkColorStr [⟨[], ['3', '1'], [], [], 0⟩, ⟨['a', 'b'], [], [], [], 0⟩])
      ['a', 'b'] = some true := by
  refine ⟨by decide, by decide, by decide⟩

/-- C10 witness: red "ab" compared with the plain string "ab" — the
amended theorem applies, and concretely the comparison returns
`False`. -/
theorem c10_equality_pattern_witness :
    eqStr (mkColorStr [⟨['a', 'b'], ['3', '1'], [], [], 0⟩]) ['a', 'b'] ≠
      some true ∧
    eqStr (mkColorStr [⟨['a', 'b'], ['3', '1'], [], [], 0⟩]) ['a', 'b'] =
      some false := by
  constructor
  · exact c10_equality_pattern_amended
      (mkColorStr [⟨['a', 'b'], ['3', '1'], [], [], 0⟩])
      (contig_mkColorStr _) (by decide) ['a', 'b'] (by decide)
  · decide

/-- Tokens reaching the code loop during parsing: strings of decimal
digits (possibly empty). -/
def digitTok : PyVal → Bool
  | .str t => t.all Char.isDigit
  | .int _ => false

theorem pyOrZero_isSome_of_digit (v : PyVal) (h : digitTok v = true) :
    (pyOrZero v).isSome = true := by
  cases v with
  | int n => rfl
  | str t =>
    rw [pyOrZero]
    by_cases ht : t = []
    · rw [if_pos ht]; rfl
    · rw [if_neg ht, pyIntStr_of_digits t ht (by simpa [digitTok] using h)]
      rfl

theorem nextD_fst_digit (it : List PyVal) (d : PyVal)
    (h : ∀ v ∈ it, digitTok v = true) (hd : digitTok d = true) :
    digitTok (nextD it d).1 = true := by
  cases it with
  | nil => exact hd
  | cons x xs => exact h x (List.mem_cons_self _ _)

theorem nextD_snd_digit (it : List PyVal) (d : PyVal)
    (h : ∀ v ∈ it, digitTok v = true) :
    ∀ v ∈ (nextD it d).2, digitTok v = true := by
  cases it with
  | nil => intro v hv; simp [nextD] at hv
  | cons x xs => exact fun v hv => h v (List.mem_cons_of_mem _ hv)

theorem fmtArgs_total (code c_mode : List Char) (it : List PyVal)
    (h : ∀ v ∈ it, digitTok v = true) :
    ∃ r it2, fmtArgs code c_mode it = some (r, it2) ∧
      ∀ v ∈ it2, digitTok v = true := by
  rw [fmtArgs]
  simp only
  set m0 := if c_mode ≠ [] then (PyVal.str c_mode, it) else nextD it (.str [])
    with hm0
  have hit1 : ∀ v ∈ m0.2, digitTok v = true := by
    rw [hm0]
    split
    · exact h
    · exact nextD_snd_digit it _ h
  by_cases h5 : m0.1.toStr = ['5']
  · rw [if_pos h5]
    have hv1 : digitTok (nextD m0.2 (.str ['0'])).1 = true :=
      nextD_fst_digit _ _ hit1 (by decide)
    have hs1 := pyOrZero_isSome_of_digit _ hv1
    cases hpo : pyOrZero (nextD m0.2 (.str ['0'])).1 with
    | none => rw [hpo] at hs1; simp at hs1
    | some n => exact ⟨_, _, rfl, nextD_snd_digit _ _ hit1⟩
  · rw [if_neg h5]
    by_cases h2 : m0.1.toStr = ['2']
    · rw [if_pos h2]
      have hit2 : ∀ v ∈ (nextD m0.2 (.str ['0'])).2, digitTok v = true :=
        nextD_snd_digit _ _ hit1
      have hit3 : ∀ v ∈ (nextD (nextD m0.2 (.str ['0'])).2 (.str ['0'])).2,
          digitTok v = true := nextD_snd_digit _ _ hit2
      have hv1 : digitTok (nextD m0.2 (.str ['0'])).1 = true :=
        nextD_fst_digit _ _ hit1 (by decide)
      have hs1 := pyOrZero_isSome_of_digit _ hv1
      cases hpo1 : pyOrZero (nextD m0.2 (.str ['0'])).1 with
      | none => rw [hpo1] at hs1; simp at hs1
      | some r =>
        have hv2 : digitTok (nextD (nextD m0.2 (.str ['0'])).2 (.str ['0'])).1 = true :=
          nextD_fst_digit _ _ hit2 (by decide)
        have hs2 := pyOrZero_isSome_of_digit _ hv2
        cases hpo2 : pyOrZero (nextD (nextD m0.2 (.str ['0'])).2 (.str ['0'])).1 with
        | none => rw [hpo2] at hs2; simp at hs2
        | some g =>
          have hv3 : digitTok (nextD (nextD (nextD m0.2 (.str ['0'])).2
              (.str ['0'])).2 (.str ['0'])).1 = true :=
            nextD_fst_digit _ _ hit3 (by decide)
          have hs3 := pyOrZero_isSome_of_digit _ hv3
          cases hpo3 : pyOrZero (nextD (nextD (nextD m0.2 (.str ['0'])).2
              (.str ['0'])).2 (.str ['0'])).1 with
          | none => rw [hpo3] at hs3; simp at hs3
          | some b => exact ⟨_, _, rfl, nextD_snd_digit _ _ hit3⟩
    · rw [if_neg h2]
      exact ⟨_, _, rfl, hit1⟩

theorem fmtAnsicolor_total (it : List PyVal) (c_code c_mode : List Char)
    (h : ∀ v ∈ it, digitTok v = true) :
    ∃ o, fmtAnsicolor it c_code c_mode = some o ∧
      ∀ v ∈ o.it, digitTok v = true := by
  rw [fmtAnsicolor]
  set c0 := if c_code ≠ [] then (PyVal.str c_code, it) else nextD it (.str [])
    with hc0
  have hit1 : ∀ v ∈ c0.2, digitTok v = true := by
    rw [hc0]
    split
    · exact h
    · exact nextD_snd_digit it _ h
  by_cases he : c0.1.toStr = []
  · rw [if_pos he]
    exact ⟨_, rfl, hit1⟩
  · rw [if_neg he]
    by_cases h38 : c0.1.toStr = ['3', '8']
    · rw [if_pos h38]
      obtain ⟨r, it2, heq, hgood⟩ := fmtArgs_total ['3', '8'] c_mode c0.2 hit1
      rw [heq]
      exact ⟨_, rfl, hgood⟩
    · rw [if_neg h38]
      by_cases h48 : c0.1.toStr = ['4', '8']
      · rw [if_pos h48]
        obtain ⟨r, it2, heq, hgood⟩ := fmtArgs_total ['4', '8'] c_mode c0.2 hit1
        rw [heq]
        exact ⟨_, rfl, hgood⟩
      · rw [if_neg h48]
        cases colorREMatch c0.1.toStr with
        | none => exact ⟨_, rfl, hit1⟩
        | some g =>
          cases g with
          | inl f => exact ⟨_, rfl, hit1⟩
          | inr b => exact ⟨_, rfl, hit1⟩

theorem procCodesF_total : ∀ (fuel : Nat) (toks : List PyVal) (st : PState),
    toks.length < fuel → (∀ v ∈ toks, digitTok v = true) →
    (procCodesF fuel toks st).isSome = true := by
  intro fuel
  induction fuel with
  | zero => intro toks st h _; omega
  | succ f ih =>
    intro toks st hlen hgood
    match toks with
    | [] => rfl
    | v :: rest =>
      simp only [List.length_cons] at hlen
      have hrest : ∀ w ∈ rest, digitTok w = true :=
        fun w hw => hgood w (List.mem_cons_of_mem _ hw)
      simp only [procCodesF]
      by_cases h0 : v.toStr = ['0'] ∨ v.toStr = []
      · rw [if_pos h0]
        exact ih rest _ (by omega) hrest
      · rw [if_neg h0]
        cases styleCharOf v.toStr with
        | some c => exact ih rest _ (by omega) hrest
        | none =>
          obtain ⟨o, heq, hogood⟩ := fmtAnsicolor_total rest v.toStr [] hrest
          rw [heq]
          have hle := fmtAnsicolor_it_le rest v.toStr [] o heq
          exact ih o.it _ (by omega) hogood

theorem procCodes_total (toks : List PyVal) (st : PState)
    (hgood : ∀ v ∈ toks, digitTok v = true) :
    (procCodes toks st).isSome = true :=
  procCodesF_total (toks.length + 1) toks st (by omega) hgood

theorem splitSemi_digits : ∀ (run : List Char), run.all isSemiDigit = true →
    ∀ t ∈ splitSemi run, t.all Char.isDigit = true := by
  intro run
  induction run with
  | nil =>
    intro _ t ht
    rcases List.mem_singleton.mp ht with rfl
    rfl
  | cons c rest ih =>
    intro hall t ht
    rw [List.all_cons, Bool.and_eq_true] at hall
    rw [splitSemi] at ht
    by_cases hc : c = ';'
    · rw [if_pos hc] at ht
      rcases List.mem_cons.mp ht with rfl | h
      · rfl
      · exact ih hall.2 t h
    · rw [if_neg hc] at ht
      have hcd : c.isDigit = true := by
        have := hall.1
        rw [isSemiDigit, Bool.or_eq_true] at this
        rcases this with h | h
        · exact h
        · exact absurd (by simpa using h) hc
      cases hs : splitSemi rest with
      | nil =>
        rw [hs] at ht
        rcases List.mem_singleton.mp ht with rfl
        simp [hcd]
      | cons t0 ts =>
        rw [hs] at ht
        rcases List.mem_cons.mp ht with rfl | h
        · have ht0 : t0.all Char.isDigit = true :=
            ih hall.2 t0 (by rw [hs]; exact List.mem_cons_self _ _)
          simp [hcd, ht0]
        · exact ih hall.2 t (by rw [hs]; exact List.mem_cons_of_mem _ h)

theorem parseLoop_total : ∀ (n : Nat) (s : List Char) (st : PState),
    s.length ≤ n → (parseLoop s st).isSome = true := by
  intro n
  induction n with
  | zero =>
    intro s st hlen
    have hs : s = [] := List.length_eq_zero.mp (by omega)
    subst hs
    rfl
  | succ n ih =>
    intro s st hlen
    rw [parseLoop_eq]
    cases hfe : findEsc s with
    | none => simp
    | some pr =>
      obtain ⟨pre, run, rest⟩ := pr
      have hspec := findEsc_spec s pre run rest hfe
      have hgood : ∀ v ∈ (splitSemi run).map PyVal.str, digitTok v = true := by
        intro v hv
        obtain ⟨t, ht, rfl⟩ := List.mem_map.mp hv
        simpa [digitTok] using splitSemi_digits run hspec.2.2 t ht
      have hproc := procCodes_total ((splitSemi run).map PyVal.str) st hgood
      obtain ⟨st2, hpc⟩ := Option.isSome_iff_exists.mp hproc
      have hrlen := findEsc_length s pre run rest hfe
      have hloop := ih rest st2 (by omega)
      obtain ⟨segs, hpl⟩ := Option.isSome_iff_exists.mp hloop
      simp [hpc, hpl]

/-- C6.  Parsing is total and lenient: for every input string,
`ansi_to_segments` returns a segment list and never raises — the
semicolon-split parameter tokens are always digit strings (possibly
empty), so every `int()` conversion succeeds and unknown codes are
ignored.  In particular the truncated extended-color sequence
"\x1b[38;5m" parses (the missing parameter defaults to 0, leaving no
text), and the unknown code "\x1b[99m" is ignored, leaving a plain
segment. -/
theorem c6_parse_total :
    (∀ s : List Char, (ansiToSegments s).isSome = true) ∧
    ansiToSegments ('\x1b' :: "[38;5m".toList) = some [] ∧
    ansiToSegments ('\x1b' :: "[99mX".toList) =
      some [⟨['X'], [], [], [], 0⟩] := by
  refine ⟨?_, by decide, by decide⟩
  intro s
  rw [ansiToSegments]
  by_cases h1 : s = []
  · rw [if_pos h1]; rfl
  · rw [if_neg h1]
    by_cases h2 : ¬ hasEscBracket s = true
    · rw [if_pos h2]; rfl
    · rw [if_neg h2]
      exact parseLoop_total s.length s PState.empty le_rfl

/-- The `codes` parameter string of `assemble` with all attributes
enabled: sorted style codes joined by ";", then ";fg", then ";bg". -/
def segCodes (s : ColorSeg) : List Char :=
  joinSemi (s.styles.map (fun c => [c])) ++
    (if s.fg ≠ [] then ';' :: s.fg else []) ++
    (if s.bg ≠ [] then ';' :: s.bg else [])

theorem to_ansi_eq (s : ColorSeg) :
    s.to_ansi = if s.plain = [] then []
      else if segCodes s = [] then s.plain
      else escChar :: '[' ::
        (segCodes s ++ 'm' :: (s.plain ++ [escChar, '[', '0', 'm'])) := by
  rw [ColorSeg.to_ansi, ColorSeg.assemble, segCodes]
  simp only [if_pos, true_and]

/-- A segment is round-trip clean when its text is escape-free and its
assembled parameter string decodes (from the reset state) back to its own
attributes. -/
def CleanSeg (s : ColorSeg) : Prop :=
  escChar ∉ s.plain ∧
  (segCodes s).all isSemiDigit = true ∧
  (segCodes s = [] → s.fg = [] ∧ s.bg = [] ∧ s.styles = []) ∧
  (segCodes s ≠ [] →
    procCodes ((splitSemi (segCodes s)).map PyVal.str) PState.empty =
      some ⟨s.fg, s.bg, s.styles⟩)

instance (s : ColorSeg) : Decidable (CleanSeg s) := by
  unfold CleanSeg
  infer_instance

theorem matchAt_none_of_head (c : Char) (cs : List Char) (hc : c ≠ escChar) :
    matchAt (c :: cs) = none := by
  match cs with
  | [] => rfl
  | b :: tl =>
    rw [matchAt]
    exact if_neg (fun hh => hc hh.1)

theorem findEsc_none_of_no_esc : ∀ (s : List Char), escChar ∉ s →
    findEsc s = none := by
  intro s
  induction s with
  | nil => intro _; rfl
  | cons c cs ih =>
    intro h
    rw [findEsc]
    rw [matchAt_none_of_head c cs (fun hc => h (hc ▸ List.mem_cons_self _ _))]
    rw [ih (fun hmem => h (List.mem_cons_of_mem _ hmem))]

theorem findEsc_no_esc_append : ∀ (pre tail : List Char), escChar ∉ pre →
    findEsc (pre ++ tail) =
      (findEsc tail).map (fun prr => (pre ++ prr.1, prr.2.1, prr.2.2)) := by
  intro pre
  induction pre with
  | nil =>
    intro tail _
    simp only [List.nil_append]
    cases h : findEsc tail with
    | none => rfl
    | some prr => rfl
  | cons c pr ih =>
    intro tail h
    have hc : c ≠ escChar := fun hc => h (hc ▸ List.mem_cons_self _ _)
    rw [List.cons_append, findEsc]
    rw [matchAt_none_of_head c (pr ++ tail) hc]
    rw [ih tail (fun hmem => h (List.mem_cons_of_mem _ hmem))]
    cases h2 : findEsc tail with
    | none => rfl
    | some prr => rfl

theorem takeWhile_all_append (p : Char → Bool) :
    ∀ (l t : List Char), l.all p = true →
    (l ++ t).takeWhile p = l ++ t.takeWhile p := by
  intro l
  induction l with
  | nil => intro t _; simp
  | cons c cs ih =>
    intro t h
    rw [List.all_cons, Bool.and_eq_true] at h
    rw [List.cons_append, List.takeWhile_cons, if_pos h.1, ih t h.2]
    rfl

theorem dropWhile_all_append (p : Char → Bool) :
    ∀ (l t : List Char), l.all p = true →
    (l ++ t).dropWhile p = t.dropWhile p := by
  intro l
  induction l with
  | nil => intro t _; simp
  | cons c cs ih =>
    intro t h
    rw [List.all_cons, Bool.and_eq_true] at h
    rw [List.cons_append, List.dropWhile_cons, if_pos h.1, ih t h.2]

theorem matchAt_codes (codes rest : List Char) (hne : codes ≠ [])
    (hall : codes.all isSemiDigit = true) :
    matchAt (escChar :: '[' :: (codes ++ 'm' :: rest)) = some (codes, rest) := by
  rw [matchAt, if_pos ⟨rfl, rfl⟩]
  have ht : (codes ++ 'm' :: rest).takeWhile isSemiDigit = codes := by
    rw [takeWhile_all_append isSemiDigit codes _ hall, List.takeWhile_cons,
      if_neg (by decide)]
    simp
  have hd : (codes ++ 'm' :: rest).dropWhile isSemiDigit = 'm' :: rest := by
    rw [dropWhile_all_append isSemiDigit codes _ hall, List.dropWhile_cons,
      if_neg (by decide)]
  rw [ht, hd, if_pos ⟨hne, rfl⟩]
  rfl

theorem findEsc_piece (codes rest : List Char) (hne : codes ≠ [])
    (hall : codes.all isSemiDigit = true) :
    findEsc (escChar :: '[' :: (codes ++ 'm' :: rest)) =
      some ([], codes, rest) := by
  rw [findEsc, matchAt_codes codes rest hne hall]

theorem procCodes_reset (st : PState) :
    procCodes [.str ['0']] st = some PState.empty := rfl

theorem findEsc_none_of_no_bracket : ∀ (s : List Char),
    hasEscBracket s = false → findEsc s = none := by
  intro s
  induction s with
  | nil => intro _; rfl
  | cons c cs ih =>
    intro h
    rw [hasEscBracket, Bool.or_eq_false_iff] at h
    obtain ⟨h1, h2⟩ := h
    rw [findEsc]
    have hm : matchAt (c :: cs) = none := by
      match hcs : cs with
      | [] => rfl
      | b :: tl =>
        rw [matchAt]
        apply if_neg
        intro hh
        simp [hh.1, hh.2] at h1
    rw [hm, ih h2]

theorem ansiToSegments_parseLoop (s : List Char) :
    ansiToSegments s = parseLoop s PState.empty := by
  rw [ansiToSegments]
  by_cases h1 : s = []
  · rw [if_pos h1, h1]
    rfl
  · rw [if_neg h1]
    by_cases h2 : hasEscBracket s = true
    · rw [if_neg (by simpa using h2)]
    · rw [if_pos (by simpa using h2)]
      rw [parseLoop_eq, findEsc_none_of_no_bracket s (by simpa using h2)]
      simp [segOf, if_neg h1, PState.empty]

theorem procCodes_reset' (st : PState) :
    procCodes ((splitSemi ['0']).map PyVal.str) st = some PState.empty := rfl

/-- Parsing the serialization of clean segments after an escape-free
plain prefix: the prefix becomes unpatterned characters and the segments
reproduce their own per-character patterns. -/
theorem parseRich_aux : ∀ (segs : List ColorSeg) (pre : List Char),
    (∀ s ∈ segs, CleanSeg s) → escChar ∉ pre →
    ∃ oss, parseLoop (pre ++ richOf segs) PState.empty = some oss ∧
      flatten oss = pre.map (fun c => (c, ([], [], []))) ++ flatten segs := by
  intro segs
  induction segs with
  | nil =>
    intro pre _ hpre
    rw [show richOf [] = [] from rfl, List.append_nil]
    rw [parseLoop_eq, findEsc_none_of_no_esc pre hpre]
    by_cases hp : pre = []
    · subst hp
      exact ⟨[], by simp, by simp [flatten]⟩
    · refine ⟨[segOf pre PState.empty], by simp [hp], ?_⟩
      simp [flatten, segOf, PState.empty, ColorSeg.pat]
  | cons seg rest ih =>
    intro pre hclean hpre
    have hcs : CleanSeg seg := hclean seg (List.mem_cons_self _ _)
    have hcr : ∀ s ∈ rest, CleanSeg s :=
      fun s hs => hclean s (List.mem_cons_of_mem _ hs)
    have hrich : richOf (seg :: rest) = seg.to_ansi ++ richOf rest := by
      simp [richOf]
    by_cases hp0 : seg.plain = []
    · rw [hrich, to_ansi_eq, if_pos hp0, List.nil_append]
      obtain ⟨oss, h1, h2⟩ := ih pre hcr hpre
      refine ⟨oss, h1, ?_⟩
      rw [h2, flatten_cons, hp0]
      simp
    · rw [hrich, to_ansi_eq, if_neg hp0]
      by_cases hcodes : segCodes seg = []
      · rw [if_pos hcodes]
        have hattrs := hcs.2.2.1 hcodes
        have hpat : seg.pat = ([], [], []) := by
          rw [ColorSeg.pat, hattrs.1, hattrs.2.1, hattrs.2.2]
        obtain ⟨oss, h1, h2⟩ := ih (pre ++ seg.plain) hcr (by
          intro hmem
          rcases List.mem_append.mp hmem with h | h
          · exact hpre h
          · exact hcs.1 h)
        rw [← List.append_assoc]
        refine ⟨oss, h1, ?_⟩
        rw [h2, flatten_cons, List.map_append, List.append_assoc]
        simp only [hpat]
      · rw [if_neg hcodes]
        obtain ⟨ossr, hr1, hr2⟩ := ih [] hcr (by simp)
        simp only [List.nil_append] at hr1
        simp only [List.map_nil, List.nil_append] at hr2
        have hassoc : (escChar :: '[' ::
            (segCodes seg ++ 'm' :: (seg.plain ++ [escChar, '[', '0', 'm']))) ++
              richOf rest =
            escChar :: '[' :: (segCodes seg ++ 'm' ::
              (seg.plain ++ (escChar :: '[' :: (['0'] ++ 'm' :: richOf rest)))) := by
          simp
        have hinner : parseLoop
            (seg.plain ++ (escChar :: '[' :: (['0'] ++ 'm' :: richOf rest)))
            ⟨seg.fg, seg.bg, seg.styles⟩ =
            some (segOf seg.plain ⟨seg.fg, seg.bg, seg.styles⟩ :: ossr) := by
          rw [parseLoop_eq]
          rw [findEsc_no_esc_append seg.plain _ hcs.1,
            findEsc_piece ['0'] (richOf rest) (by decide) (by decide)]
          simp only [Option.map_some']
          rw [procCodes_reset']
          simp only
          rw [hr1]
          simp [hp0]
        rw [parseLoop_eq, hassoc]
        rw [findEsc_no_esc_append pre _ hpre,
          findEsc_piece (segCodes seg) _ hcodes hcs.2.1]
        simp only [Option.map_some']
        rw [hcs.2.2.2 hcodes]
        simp only
        rw [hinner]
        simp only
        by_cases hp : pre = []
        · subst hp
          rw [if_pos (by simp)]
          refine ⟨_, rfl, ?_⟩
          rw [flatten_cons, flatten_cons, hr2]
          simp [segOf, ColorSeg.pat]
        · rw [if_neg (by simp [hp])]
          refine ⟨_, rfl, ?_⟩
          rw [flatten_cons, flatten_cons, flatten_cons, hr2]
          simp [segOf, ColorSeg.pat, PState.empty]

/-- C1 (amended).  Round-trip holds for every `ColorStr` whose segments
are clean: escape-free text, and an assembled parameter string that
decodes (from the reset state) back to the segment's own attributes — as
is the case for every pattern the library itself produces from clean
input.  Parsing the full serialization (`rich`, all attributes enabled)
then succeeds and yields a `ColorStr` with the same plain text and the
same per-character (fg, bg, styles) view.  (The original claim is wrong
for `ColorStr.from_str` with a pattern argument: the raw text is stored
unparsed, so escape bytes inside it are re-interpreted on the round
trip and the plain text changes — see the counterexample.) -/
theorem c1_round_trip_amended (segs : List ColorSeg)
    (hclean : ∀ s ∈ segs, CleanSeg s) :
    ∃ oss, ansiToSegments (richOf segs) = some oss ∧
      plainOf (mkColorStr oss) = plainOf segs ∧
      flatten (mkColorStr oss) = flatten segs := by
  obtain ⟨oss, h1, h2⟩ := parseRich_aux segs [] hclean (by simp)
  simp only [List.nil_append] at h1
  simp only [List.map_nil, List.nil_append] at h2
  refine ⟨oss, by rw [ansiToSegments_parseLoop]; exact h1, ?_, ?_⟩
  · rw [plainOf_eq_map_fst, flatten_mkColorStr, h2, ← plainOf_eq_map_fst]
  · rw [flatten_mkColorStr, h2]

/-- C1 counterexample to the original claim: `ColorStr.from_str` (a
public constructor) with text "\x1b[5mX" and fg "r" stores the escape
bytes unparsed in one red segment; parsing its serialization yields
plain text "X" — not the original plain text "\x1b[5mX". -/
theorem c1_round_trip_counterexample :
    fromStrPat ('\x1b' :: "[5mX".toList) (some (.str ['r'])) none [] =
      Except.ok [⟨'\x1b' :: "[5mX".toList, ['3', '1'], [], [], 0⟩] ∧
    (ansiToSegments (richOf [⟨'\x1b' :: "[5mX".toList, ['3', '1'], [], [], 0⟩])).map
        (fun oss => plainOf (mkColorStr oss)) = some ['X'] ∧
    plainOf [(⟨'\x1b' :: "[5mX".toList, ['3', '1'], [], [], 0⟩ : ColorSeg)] ≠
      ['X'] := by
  exact ⟨by decide, by decide, by decide⟩

/-- C1 witness: the amended theorem applied to the clean one-segment
`ColorStr` "ab" with fg red and the bold style — the round trip
preserves the plain text and the whole per-character view. -/
theorem c1_round_trip_witness :
    (ansiToSegments (richOf [⟨['a', 'b'], ['3', '1'], [], ['1'], 0⟩])).map
        (fun oss => plainOf (mkColorStr oss)) = some ['a', 'b'] ∧
    (ansiToSegments (richOf [⟨['a', 'b'], ['3', '1'], [], ['1'], 0⟩])).map
        (fun oss => flatten (mkColorStr oss)) =
      some (flatten [⟨['a', 'b'], ['3', '1'], [], ['1'], 0⟩]) := by
  obtain ⟨oss, h1, h2, h3⟩ := c1_round_trip_amended
    [⟨['a', 'b'], ['3', '1'], [], ['1'], 0⟩] (by decide)
  rw [h1]
  constructor
  · rw [Option.map_some', h2]
    decide
  · rw [Option.map_some', h3]

end CobraColor



